import Mathlib

/-!
# Verification of the tic-tac-toe engine (`script.js`)

Shallow embedding of the board-state model and the alpha-beta minimax
search of `src/script.js`, together with proofs of the specified
properties.

Boards are 3×3 grids of cell marks, embedded as `List (List Cell)`
exactly as the JavaScript nested arrays.  The JavaScript numbers that
flow through the search are the utilities `-1, 0, 1` and the two
infinities used as initial alpha/beta bounds; they are embedded as the
extended integers `EInt`.  The mutually recursive search functions
terminate because every move fills an empty cell; the embedding makes
this explicit with a fuel parameter (`10` exceeds the at most `9`
empty cells of a well-formed board, so the fuel never runs out).
-/

namespace TicTacToe

/-- The three cell marks `''`, `'X'`, `'O'` of the JavaScript source. -/
inductive Cell where
  | EMPTY : Cell
  | X : Cell
  | O : Cell
deriving DecidableEq

/-- A board is a nested array of cells, as in the source. -/
abbrev Board := List (List Cell)

/-- A move `[i, j]` (row, column). -/
abbrev Move := Nat × Nat

/-- `initialState()`: the all-empty starting board. -/
def initialState : Board :=
  [[.EMPTY, .EMPTY, .EMPTY],
   [.EMPTY, .EMPTY, .EMPTY],
   [.EMPTY, .EMPTY, .EMPTY]]

/-- Cell lookup `board[i][j]` (only ever used at in-range indices). -/
def getCell (board : Board) (i j : Nat) : Cell :=
  (board.getD i []).getD j .EMPTY

/-- The occupied-cell count of `player()`: cells that are not `EMPTY`. -/
def occupiedCount (board : Board) : Nat :=
  (board.map (fun row => row.countP (fun c => c != Cell.EMPTY))).sum

/-- `player(board)`: `X` iff the number of occupied cells is even. -/
def player (board : Board) : Cell :=
  if occupiedCount board % 2 = 0 then .X else .O

/-- `actions(board)`: all `(i, j)` with `board[i][j] === EMPTY`, in
row-major order. -/
def actions (board : Board) : List Move :=
  (List.range board.length).flatMap (fun i =>
    (List.range (board.getD i []).length).filterMap (fun j =>
      if getCell board i j = .EMPTY then some (i, j) else none))

/-- The clone-and-assign of `result`: copy the board and set cell
`(x, y)` to `v`. -/
def place (board : Board) (x y : Nat) (v : Cell) : Board :=
  board.set x ((board.getD x []).set y v)

/-- `result(board, action)`: `none` models the thrown
`Invalid Action!` error.  The range check precedes the cell check,
as in the source; on success the clone is updated with
`player(resultBoard)`, which equals `player board` because the clone
is untouched at assignment time. -/
def result (board : Board) (action : Move) : Option Board :=
  if ¬ (action.1 ∈ [0, 1, 2] ∧ action.2 ∈ [0, 1, 2]) then none
  else if getCell board action.1 action.2 ≠ .EMPTY then none
  else some (place board action.1 action.2 (player board))

/-- The eight `winningConditions` of `winner`, in source order. -/
def winningConditions : List (List Move) :=
  [[(0, 0), (0, 1), (0, 2)],
   [(1, 0), (1, 1), (1, 2)],
   [(2, 0), (2, 1), (2, 2)],
   [(0, 0), (1, 0), (2, 0)],
   [(0, 1), (1, 1), (2, 1)],
   [(0, 2), (1, 2), (2, 2)],
   [(0, 0), (1, 1), (2, 2)],
   [(0, 2), (1, 1), (2, 0)]]

/-- The `cells` array collected for one winning condition. -/
def lineCells (board : Board) (condition : List Move) : List Cell :=
  condition.map (fun p => getCell board p.1 p.2)

/-- The check `cells.every(cell => cell !== EMPTY && cell === cells[0])`:
`some` of the shared mark when the whole line is one non-empty mark. -/
def lineMark (board : Board) (condition : List Move) : Option Cell :=
  match lineCells board condition with
  | [] => none
  | c0 :: rest =>
    if (c0 :: rest).all (fun cell => cell != Cell.EMPTY && cell == c0) then
      some c0
    else none

/-- The `winner` loop over a list of conditions: the first matching
condition together with its mark.  The source returns the mark and
highlights the condition's three cells; the pair records both. -/
def winnerScan (board : Board) : List (List Move) → Option (List Move × Cell)
  | [] => none
  | condition :: rest =>
    match lineMark board condition with
    | some m => some (condition, m)
    | none => winnerScan board rest

/-- The first winning triple of the board with its mark (`winningLine`
of the specification). -/
def winnerLine (board : Board) : Option (List Move × Cell) :=
  winnerScan board winningConditions

/-- `winner(board)`: the winning mark, or `none` (`null`). -/
def winner (board : Board) : Option Cell :=
  (winnerLine board).map (fun r => r.2)

/-- `terminal(board)`: a winner exists or no action remains. -/
def terminal (board : Board) : Bool :=
  (winner board).isSome || (actions board).isEmpty

/-- `utility(board)`: `1` if `X` won, `-1` if `O` won, else `0`. -/
def utility (board : Board) : Int :=
  if winner board = some .X then 1
  else if winner board = some .O then -1
  else 0

/-- The four-valued `Outcome` of the specification. -/
inductive Outcome where
  | XWins : Outcome
  | OWins : Outcome
  | Draw : Outcome
  | InProgress : Outcome
deriving DecidableEq

/-- `outcome(board)`: derived from `winner` and `terminal` exactly as
`utility` distinguishes the winners, refining the zero case by
terminality. -/
def outcome (board : Board) : Outcome :=
  if winner board = some .X then .XWins
  else if winner board = some .O then .OWins
  else if terminal board then .Draw
  else .InProgress

/-- The scalar outcome mapping of the specification:
`XWins → +1, Draw → 0, OWins → -1`. -/
def outcomeScore : Outcome → Int
  | .XWins => 1
  | .OWins => -1
  | .Draw => 0
  | .InProgress => 0

/-! ## Extended integers

The search mixes the integer utilities with JavaScript's
`-Infinity` / `Infinity` initial bounds. -/

/-- An integer, `-Infinity`, or `Infinity`. -/
inductive EInt where
  | negInf : EInt
  | fin (v : Int) : EInt
  | posInf : EInt

namespace EInt

/-- Boolean equality on extended integers. -/
def beq : EInt → EInt → Bool
  | negInf, negInf => true
  | posInf, posInf => true
  | fin a, fin b => a == b
  | _, _ => false

instance instDecEq : DecidableEq EInt := fun a b =>
  decidable_of_iff (beq a b = true)
    (by cases a <;> cases b <;> simp [beq])

/-- Boolean order on extended integers. -/
def ble : EInt → EInt → Bool
  | negInf, _ => true
  | _, posInf => true
  | fin a, fin b => a ≤ b
  | posInf, negInf => false
  | posInf, fin _ => false
  | fin _, negInf => false

instance : LE EInt :=
  ⟨fun a b => ble a b = true⟩

instance : LT EInt :=
  ⟨fun a b => ble b a = false⟩

lemma le_def (a b : EInt) : (a ≤ b) = (ble a b = true) := rfl

lemma lt_def (a b : EInt) : (a < b) = (ble b a = false) := rfl

instance instDecLE (a b : EInt) : Decidable (a ≤ b) :=
  decidable_of_iff (ble a b = true) Iff.rfl

instance instDecLT (a b : EInt) : Decidable (a < b) :=
  decidable_of_iff (ble b a = false) Iff.rfl

instance : Min EInt :=
  ⟨fun a b => if a ≤ b then a else b⟩

instance : Max EInt :=
  ⟨fun a b => if a ≤ b then b else a⟩

instance : Ord EInt :=
  ⟨fun a b => compareOfLessAndEq a b⟩

instance : LinearOrder EInt where
  le := (· ≤ ·)
  lt := (· < ·)
  min := min
  max := max
  compare := compare
  le_refl a := by
    cases a <;> simp [le_def, ble]
  le_trans a b c := by
    cases a <;> cases b <;> cases c <;>
      simp [le_def, ble, decide_eq_true_eq] <;> omega
  le_antisymm a b := by
    cases a <;> cases b <;>
      simp [le_def, ble, decide_eq_true_eq] <;> omega
  le_total a b := by
    cases a <;> cases b <;>
      simp [le_def, ble, decide_eq_true_eq] <;> omega
  lt_iff_le_not_le a b := by
    cases a <;> cases b <;>
      simp [le_def, lt_def, ble, decide_eq_true_eq, decide_eq_false_iff_not] <;>
      omega
  decidableLE := instDecLE
  decidableLT := instDecLT
  decidableEq := instDecEq
  min_def a b := rfl
  max_def a b := rfl
  compare_eq_compareOfLessAndEq a b := rfl

end EInt

/-! ## The alpha-beta search -/

/-- The `for (const action of actions(board))` loop body of
`maxValue`, abstracted over the child evaluation
`child a alpha beta = maxValue(result(board, a), alpha, beta)[0]`.
State: current `alpha`, fixed `beta`, running `maxVal`, running
`bestAction`; the early `break` fires once `beta <= alpha`. -/
def maxLoop (child : Move → EInt → EInt → EInt) :
    List Move → EInt → EInt → EInt → Option Move → EInt × Option Move
  | [], _alpha, _beta, maxVal, bestAction => (maxVal, bestAction)
  | action :: rest, alpha, beta, maxVal, bestAction =>
    let minVal : EInt := child action alpha beta
    let maxVal' : EInt := if maxVal < minVal then minVal else maxVal
    let bestAction' : Option Move :=
      if maxVal < minVal then some action else bestAction
    let alpha' : EInt := max alpha maxVal'
    if beta ≤ alpha' then (maxVal', bestAction')
    else maxLoop child rest alpha' beta maxVal' bestAction'

/-- The corresponding loop of `minValue`: fixed `alpha`, current
`beta`, running `minVal` and `bestAction`. -/
def minLoop (child : Move → EInt → EInt → EInt) :
    List Move → EInt → EInt → EInt → Option Move → EInt × Option Move
  | [], _alpha, _beta, minVal, bestAction => (minVal, bestAction)
  | action :: rest, alpha, beta, minVal, bestAction =>
    let maxVal : EInt := child action alpha beta
    let minVal' : EInt := if maxVal < minVal then maxVal else minVal
    let bestAction' : Option Move :=
      if maxVal < minVal then some action else bestAction
    let beta' : EInt := min beta minVal'
    if beta' ≤ alpha then (minVal', bestAction')
    else minLoop child rest alpha beta' minVal' bestAction'

mutual

/-- `maxValue(board, alpha, beta)`: value and best action for the
maximizing player.  The fuel argument witnesses termination (each
recursive call is on a board with one more occupied cell); it never
reaches `0` when it starts above the number of empty cells.  Inside
the loop, `result board action` evaluates to
`place board action.1 action.2 (player board)` for every
`action ∈ actions board` (lemma `result_of_mem_actions`). -/
def maxValue : Nat → Board → EInt → EInt → EInt × Option Move
  | 0, _, _, _ => (.posInf, none)
  | fuel + 1, board, alpha, beta =>
    if terminal board then (.fin (utility board), none)
    else
      maxLoop
        (fun action al be =>
          (minValue fuel (place board action.1 action.2 (player board)) al be).1)
        (actions board) alpha beta .negInf none

/-- `minValue(board, alpha, beta)`: value and best action for the
minimizing player. -/
def minValue : Nat → Board → EInt → EInt → EInt × Option Move
  | 0, _, _, _ => (.negInf, none)
  | fuel + 1, board, alpha, beta =>
    if terminal board then (.fin (utility board), none)
    else
      minLoop
        (fun action al be =>
          (maxValue fuel (place board action.1 action.2 (player board)) al be).1)
        (actions board) alpha beta .posInf none

end

/-- `minimax(board)`: `null` on a terminal board, else the best action
of `maxValue` for `X` and of `minValue` for `O`, with the full
`(-Infinity, Infinity)` window. -/
def minimax (board : Board) : Option Move :=
  if terminal board then none
  else if player board = .X then (maxValue 10 board .negInf .posInf).2
  else (minValue 10 board .negInf .posInf).2

/-! ## A sharing-friendly evaluator

`decide`-style evaluation of the search duplicates unevaluated
subterms.  The following evaluator is definitionally the same search
(theorems `maxValueE_eq`, `minValueE_eq`, `minimaxE_eq` below), but
forces every intermediate value to constructor form through explicit
continuations, so that concrete runs of the search reduce in
polynomial time.  It is used only to evaluate the search on concrete
boards; all reasoning is about the faithful definitions above. -/

/-- Force an extended integer to constructor form. -/
def forceE (v : EInt) (k : EInt → α) : α :=
  match v with
  | .negInf => k .negInf
  | .fin x => k (.fin x)
  | .posInf => k .posInf

/-- Force an optional move to constructor form. -/
def forceO (v : Option Move) (k : Option Move → α) : α :=
  match v with
  | none => k none
  | some (i, j) => k (some (i, j))

/-- Force a row of cells to constructor form. -/
def forceRow (r : List Cell) (k : List Cell → α) : α :=
  match r with
  | [] => k []
  | .EMPTY :: rest => forceRow rest (fun rest' => k (.EMPTY :: rest'))
  | .X :: rest => forceRow rest (fun rest' => k (.X :: rest'))
  | .O :: rest => forceRow rest (fun rest' => k (.O :: rest'))

/-- Force a board to constructor form. -/
def forceBoard (b : Board) (k : Board → α) : α :=
  match b with
  | [] => k []
  | r :: rest => forceRow r (fun r' => forceBoard rest (fun rest' => k (r' :: rest')))

/-- `maxLoop` with forced intermediate values. -/
def maxLoopE (child : Move → EInt → EInt → EInt) :
    List Move → EInt → EInt → EInt → Option Move → EInt × Option Move
  | [], _alpha, _beta, maxVal, bestAction => (maxVal, bestAction)
  | action :: rest, alpha, beta, maxVal, bestAction =>
    forceE (child action alpha beta) fun minVal =>
    forceE (if maxVal < minVal then minVal else maxVal) fun maxVal' =>
    forceO (if maxVal < minVal then some action else bestAction) fun bestAction' =>
    forceE (max alpha maxVal') fun alpha' =>
    if beta ≤ alpha' then (maxVal', bestAction')
    else maxLoopE child rest alpha' beta maxVal' bestAction'

/-- `minLoop` with forced intermediate values. -/
def minLoopE (child : Move → EInt → EInt → EInt) :
    List Move → EInt → EInt → EInt → Option Move → EInt × Option Move
  | [], _alpha, _beta, minVal, bestAction => (minVal, bestAction)
  | action :: rest, alpha, beta, minVal, bestAction =>
    forceE (child action alpha beta) fun maxVal =>
    forceE (if maxVal < minVal then maxVal else minVal) fun minVal' =>
    forceO (if maxVal < minVal then some action else bestAction) fun bestAction' =>
    forceE (min beta minVal') fun beta' =>
    if beta' ≤ alpha then (minVal', bestAction')
    else minLoopE child rest alpha beta' minVal' bestAction'

mutual

/-- `maxValue` with forced intermediate values. -/
def maxValueE : Nat → Board → EInt → EInt → EInt × Option Move
  | 0, _, _, _ => (.posInf, none)
  | fuel + 1, board, alpha, beta =>
    if terminal board then (.fin (utility board), none)
    else
      maxLoopE
        (fun action al be =>
          forceBoard (place board action.1 action.2 (player board)) fun board' =>
          (minValueE fuel board' al be).1)
        (actions board) alpha beta .negInf none

/-- `minValue` with forced intermediate values. -/
def minValueE : Nat → Board → EInt → EInt → EInt × Option Move
  | 0, _, _, _ => (.negInf, none)
  | fuel + 1, board, alpha, beta =>
    if terminal board then (.fin (utility board), none)
    else
      minLoopE
        (fun action al be =>
          forceBoard (place board action.1 action.2 (player board)) fun board' =>
          (maxValueE fuel board' al be).1)
        (actions board) alpha beta .posInf none

end

/-- `minimax` with forced intermediate values. -/
def minimaxE (board : Board) : Option Move :=
  if terminal board then none
  else if player board = .X then (maxValueE 10 board .negInf .posInf).2
  else (minValueE 10 board .negInf .posInf).2

/-- The child-evaluation function of the root `maxValue` call on the
initial board: the value reported to the maximizing loop for each
candidate opening move.  Named so that the root loop can be stepped
through move by move when evaluating the search on the initial
board. -/
def rootChild : Move → EInt → EInt → EInt :=
  fun action al be =>
    (minValue 9 (place initialState action.1 action.2 (player initialState))
      al be).1

/-! ## Specification-side definitions -/

/-- A well-formed board: three rows of three cells. -/
def wf (board : Board) : Prop :=
  board.length = 3 ∧ ∀ row ∈ board, row.length = 3

/-- Number of legal moves (empty cells). -/
def emptyCount (board : Board) : Nat :=
  (actions board).length

/-- Modelled from the spec: the game-theoretic value of a board under
the mapping `XWins → +1, Draw → 0, OWins → -1`, with `X` maximizing
and `O` minimizing.  Fuelled like the search. -/
def val : Nat → Board → Int
  | 0, _ => 0
  | fuel + 1, board =>
    if terminal board then outcomeScore (outcome board)
    else
      match (actions board).map
          (fun a => val fuel (place board a.1 a.2 (player board))) with
      | [] => 0
      | v :: vs =>
        if player board = .X then vs.foldl max v else vs.foldl min v

/-- The game-theoretic value of a (well-formed) board. -/
def gameValue (board : Board) : Int :=
  val 10 board

/-- Clamp a value into the window `[alpha, beta]`; the fail-soft
alpha-beta invariant is that the search result and the true value have
the same clamp. -/
def clamp (alpha beta r : EInt) : EInt :=
  min (max r alpha) beta

/-- Self-play: repeatedly apply the move returned by `minimax` until
the board is terminal (at most 9 steps from the initial board). -/
def selfPlay : Nat → Board → Board
  | 0, board => board
  | fuel + 1, board =>
    match minimax board with
    | none => board
    | some m => selfPlay fuel (place board m.1 m.2 (player board))

/-- A winning line of mark `m` exists: one of the eight conditions has
all three cells equal to `m`. -/
def hasLine (board : Board) (m : Cell) : Prop :=
  ∃ c ∈ winningConditions, ∀ p ∈ c, getCell board p.1 p.2 = m

instance (board : Board) (m : Cell) : Decidable (hasLine board m) := by
  unfold hasLine
  infer_instance

/-- Number of cells of the board holding mark `m`. -/
def countMark (board : Board) (m : Cell) : Nat :=
  (board.map (fun row => row.count m)).sum

/-- Boards reachable from the initial board by successful `result`
calls alone. -/
inductive ResultReach : Board → Prop where
  | init : ResultReach initialState
  | step {board board' : Board} {m : Move} :
      ResultReach board → result board m = some board' → ResultReach board'

/-- Boards reachable from the initial board by legal play: successful
`result` calls on non-terminal boards. -/
inductive LegalReach : Board → Prop where
  | init : LegalReach initialState
  | step {board board' : Board} {m : Move} :
      LegalReach board → terminal board = false →
      result board m = some board' → LegalReach board'

/-! ## Equivalence of the evaluator with the faithful search -/

lemma forceE_eq (v : EInt) (k : EInt → α) : forceE v k = k v := by
  cases v <;> rfl

lemma forceO_eq (v : Option Move) (k : Option Move → α) : forceO v k = k v := by
  rcases v with _ | ⟨i, j⟩ <;> rfl

lemma forceRow_eq (r : List Cell) (k : List Cell → α) : forceRow r k = k r := by
  induction r generalizing k with
  | nil => rfl
  | cons c rest ih => cases c <;> simp [forceRow, ih]

lemma forceBoard_eq (b : Board) (k : Board → α) : forceBoard b k = k b := by
  induction b generalizing k with
  | nil => rfl
  | cons r rest ih => simp [forceBoard, forceRow_eq, ih]

lemma maxLoopE_eq (child : Move → EInt → EInt → EInt) (l : List Move)
    (alpha beta maxVal : EInt) (bestAction : Option Move) :
    maxLoopE child l alpha beta maxVal bestAction =
      maxLoop child l alpha beta maxVal bestAction := by
  induction l generalizing alpha maxVal bestAction with
  | nil => rfl
  | cons action rest ih =>
    simp only [maxLoopE, maxLoop, forceE_eq, forceO_eq]
    split <;> simp [ih]

lemma minLoopE_eq (child : Move → EInt → EInt → EInt) (l : List Move)
    (alpha beta minVal : EInt) (bestAction : Option Move) :
    minLoopE child l alpha beta minVal bestAction =
      minLoop child l alpha beta minVal bestAction := by
  induction l generalizing beta minVal bestAction with
  | nil => rfl
  | cons action rest ih =>
    simp only [minLoopE, minLoop, forceE_eq, forceO_eq]
    split <;> simp [ih]

lemma maxValueE_minValueE_eq (fuel : Nat) :
    (∀ board alpha beta, maxValueE fuel board alpha beta =
      maxValue fuel board alpha beta) ∧
    (∀ board alpha beta, minValueE fuel board alpha beta =
      minValue fuel board alpha beta) := by
  induction fuel with
  | zero => exact ⟨fun _ _ _ => rfl, fun _ _ _ => rfl⟩
  | succ fuel ih =>
    constructor <;> intro board alpha beta
    · simp only [maxValueE, maxValue, maxLoopE_eq]
      have hchild : (fun (action : Move) (al be : EInt) =>
          forceBoard (place board action.1 action.2 (player board)) fun board' =>
            (minValueE fuel board' al be).1) =
          (fun (action : Move) (al be : EInt) =>
            (minValue fuel (place board action.1 action.2 (player board)) al be).1) := by
        funext action al be
        rw [forceBoard_eq, ih.2]
      rw [hchild]
    · simp only [minValueE, minValue, minLoopE_eq]
      have hchild : (fun (action : Move) (al be : EInt) =>
          forceBoard (place board action.1 action.2 (player board)) fun board' =>
            (maxValueE fuel board' al be).1) =
          (fun (action : Move) (al be : EInt) =>
            (maxValue fuel (place board action.1 action.2 (player board)) al be).1) := by
        funext action al be
        rw [forceBoard_eq, ih.1]
      rw [hchild]

lemma maxValueE_eq (fuel : Nat) (board : Board) (alpha beta : EInt) :
    maxValueE fuel board alpha beta = maxValue fuel board alpha beta :=
  (maxValueE_minValueE_eq fuel).1 board alpha beta

lemma minValueE_eq (fuel : Nat) (board : Board) (alpha beta : EInt) :
    minValueE fuel board alpha beta = minValue fuel board alpha beta :=
  (maxValueE_minValueE_eq fuel).2 board alpha beta

lemma minimaxE_eq (board : Board) : minimaxE board = minimax board := by
  simp [minimaxE, minimax, maxValueE_eq, minValueE_eq]

/-! ## Basic board lemmas -/

lemma length_place (b : Board) (x y : Nat) (v : Cell) :
    (place b x y v).length = b.length := by
  simp [place]

lemma getD_of_set {α : Type} (l : List α) (n m : Nat) (a d : α) :
    (l.set n a).getD m d = if n = m ∧ n < l.length then a else l.getD m d := by
  rw [List.getD_eq_getElem?_getD, List.getElem?_set]
  by_cases h : n = m
  · subst h
    by_cases hn : n < l.length
    · simp [hn]
    · simp [hn, List.getD_eq_getElem?_getD,
        List.getElem?_eq_none (by omega : l.length ≤ n)]
  · simp [h, List.getD_eq_getElem?_getD]

lemma getCell_place (b : Board) (x y i j : Nat) (v : Cell) :
    getCell (place b x y v) i j =
      if x = i ∧ y = j ∧ x < b.length ∧ y < (b.getD x []).length then v
      else getCell b i j := by
  unfold getCell place
  rw [getD_of_set]
  by_cases hx : x = i ∧ x < b.length
  · obtain ⟨rfl, hxlen⟩ := hx
    rw [if_pos ⟨rfl, hxlen⟩, getD_of_set]
    by_cases hy : y = j ∧ y < (b.getD x []).length
    · rw [if_pos hy, if_pos ⟨rfl, hy.1, hxlen, hy.2⟩]
    · rw [if_neg hy, if_neg (by tauto)]
  · rw [if_neg hx, if_neg (by tauto)]

lemma wf_place {b : Board} (hb : wf b) (x y : Nat) (v : Cell) :
    wf (place b x y v) := by
  obtain ⟨hlen, hrows⟩ := hb
  refine ⟨by simp [place, hlen], ?_⟩
  intro row hrow
  by_cases hx : x < b.length
  · rcases List.mem_or_eq_of_mem_set hrow with h | h
    · exact hrows row h
    · subst h
      rw [List.length_set, List.getD_eq_getElem?_getD, List.getElem?_eq_getElem hx]
      exact hrows _ (List.getElem_mem hx)
  · rw [place, List.set_eq_of_length_le (by omega)] at hrow
    exact hrows row hrow

lemma mem_actions_iff {b : Board} {i j : Nat} :
    (i, j) ∈ actions b ↔
      i < b.length ∧ j < (b.getD i []).length ∧ getCell b i j = .EMPTY := by
  simp only [actions, List.mem_flatMap, List.mem_filterMap, List.mem_range]
  constructor
  · rintro ⟨i', hi', j', hj', hij⟩
    split at hij
    · simp only [Option.some.injEq, Prod.mk.injEq] at hij
      obtain ⟨rfl, rfl⟩ := hij
      exact ⟨hi', hj', by assumption⟩
    · simp at hij
  · rintro ⟨hi, hj, hc⟩
    exact ⟨i, hi, j, hj, by simp [hc]⟩

lemma result_eq_none_iff (b : Board) (m : Move) :
    result b m = none ↔
      (m.1 ∉ [0, 1, 2] ∨ m.2 ∉ [0, 1, 2]) ∨ getCell b m.1 m.2 ≠ .EMPTY := by
  unfold result
  split_ifs with h1 h2 <;> simp_all <;> tauto

lemma result_eq_some_iff (b : Board) (m : Move) (b' : Board) :
    result b m = some b' ↔
      m.1 ∈ [0, 1, 2] ∧ m.2 ∈ [0, 1, 2] ∧ getCell b m.1 m.2 = .EMPTY ∧
        b' = place b m.1 m.2 (player b) := by
  unfold result
  split_ifs with h1 h2 <;> simp_all <;> tauto

lemma result_of_mem_actions {b : Board} (hb : wf b) {a : Move}
    (ha : a ∈ actions b) :
    result b a = some (place b a.1 a.2 (player b)) := by
  obtain ⟨i, j⟩ := a
  rw [mem_actions_iff] at ha
  obtain ⟨hi, hj, hc⟩ := ha
  rw [result_eq_some_iff]
  have h3 : i < 3 := hb.1 ▸ hi
  have hrow : (b.getD i []).length = 3 := by
    rw [List.getD_eq_getElem?_getD, List.getElem?_eq_getElem hi]
    exact hb.2 _ (List.getElem_mem hi)
  have h3' : j < 3 := hrow ▸ hj
  refine ⟨?_, ?_, hc, rfl⟩
  · simp only [List.mem_cons, List.mem_singleton]
    omega
  · simp only [List.mem_cons, List.mem_singleton]
    omega

lemma wf_initialState : wf initialState := by
  refine ⟨rfl, ?_⟩
  intro row hrow
  simp only [initialState, List.mem_cons, List.mem_singleton, List.not_mem_nil,
    or_false] at hrow
  rcases hrow with rfl | rfl | rfl <;> rfl

lemma wf_of_resultReach {b : Board} (h : ResultReach b) : wf b := by
  induction h with
  | init => exact wf_initialState
  | step _ hres ih =>
    rw [result_eq_some_iff] at hres
    exact hres.2.2.2 ▸ wf_place ih _ _ _

lemma resultReach_of_legalReach {b : Board} (h : LegalReach b) : ResultReach b := by
  induction h with
  | init => exact ResultReach.init
  | step _ _ hres ih => exact ResultReach.step ih hres

lemma wf_of_legalReach {b : Board} (h : LegalReach b) : wf b :=
  wf_of_resultReach (resultReach_of_legalReach h)

/-! ## Winner, terminal and outcome lemmas -/

lemma lineMark_eq_some_iff {b : Board} {c : List Move} {m : Cell} :
    lineMark b c = some m ↔
      c ≠ [] ∧ m ≠ .EMPTY ∧ ∀ p ∈ c, getCell b p.1 p.2 = m := by
  unfold lineMark lineCells
  cases c with
  | nil => simp
  | cons p rest =>
    simp only [List.map_cons]
    constructor
    · intro h
      split_ifs at h with hall
      · simp only [Option.some.injEq] at h
        subst h
        rw [List.all_eq_true] at hall
        have h0 := hall _ (List.mem_cons_self _ _)
        simp only [Bool.and_eq_true, bne_iff_ne, ne_eq, beq_iff_eq] at h0
        refine ⟨by simp, h0.1, ?_⟩
        intro q hq
        rcases List.mem_cons.mp hq with rfl | hq'
        · rfl
        · have hcell := hall _ (List.mem_cons_of_mem _
            (List.mem_map.mpr ⟨q, hq', rfl⟩))
          simp only [Bool.and_eq_true, bne_iff_ne, ne_eq, beq_iff_eq] at hcell
          exact hcell.2
    · rintro ⟨-, hm, hall⟩
      have hp : getCell b p.1 p.2 = m := hall p (List.mem_cons_self _ _)
      have hcond : ((getCell b p.1 p.2 :: rest.map fun q => getCell b q.1 q.2).all
          fun cell => cell != Cell.EMPTY && cell == getCell b p.1 p.2) = true := by
        rw [List.all_eq_true]
        intro cell hcell
        simp only [Bool.and_eq_true, bne_iff_ne, ne_eq, beq_iff_eq]
        rcases List.mem_cons.mp hcell with rfl | hcell'
        · exact ⟨hp ▸ hm, rfl⟩
        · obtain ⟨q, hq, rfl⟩ := List.mem_map.mp hcell'
          rw [hall q (List.mem_cons_of_mem _ hq), hp]
          exact ⟨hm, rfl⟩
      rw [if_pos hcond, hp]

lemma winnerScan_eq_find? (b : Board) (l : List (List Move)) :
    winnerScan b l =
      (l.find? (fun c => (lineMark b c).isSome)).bind
        (fun c => (lineMark b c).map (fun m => (c, m))) := by
  induction l with
  | nil => rfl
  | cons c rest ih =>
    unfold winnerScan
    cases h : lineMark b c with
    | some m => simp [List.find?_cons, h]
    | none => simp [List.find?_cons, h, ih]

lemma winner_eq_none_iff {b : Board} :
    winner b = none ↔ ∀ c ∈ winningConditions, lineMark b c = none := by
  unfold winner winnerLine
  rw [winnerScan_eq_find?]
  constructor
  · intro h c hc
    by_contra hne
    obtain ⟨m, hm⟩ := Option.ne_none_iff_exists'.mp hne
    obtain ⟨c', hfind⟩ : ∃ c', winningConditions.find?
        (fun c => (lineMark b c).isSome) = some c' := by
      rcases hfound : winningConditions.find? (fun c => (lineMark b c).isSome) with
        _ | c'
      · rw [List.find?_eq_none] at hfound
        exact absurd (by simp [hm]) (hfound c hc)
      · exact ⟨c', rfl⟩
    rw [hfind] at h
    have := List.find?_some hfind
    simp only [Option.isSome_iff_exists] at this
    obtain ⟨m', hm'⟩ := this
    simp [hm'] at h
  · intro h
    rw [List.find?_eq_none.mpr (fun c hc => by simp [h c hc])]
    rfl

lemma winner_eq_some_iff {b : Board} {m : Cell} :
    winner b = some m ↔
      ∃ c ∈ winningConditions, lineMark b c = some m ∧
        winningConditions.find? (fun c => (lineMark b c).isSome) = some c := by
  unfold winner winnerLine
  rw [winnerScan_eq_find?]
  constructor
  · intro h
    rcases hfound : winningConditions.find? (fun c => (lineMark b c).isSome) with
      _ | c
    · rw [hfound] at h
      simp at h
    · rw [hfound] at h
      rcases hlm : lineMark b c with _ | m'
      · simp [hlm] at h
      · simp [hlm] at h
        subst h
        exact ⟨c, List.mem_of_find?_eq_some hfound, hlm, rfl⟩
  · rintro ⟨c, _hc, hlm, hfind⟩
    rw [hfind]
    simp [hlm]

lemma winner_hasLine {b : Board} {m : Cell} (h : winner b = some m) :
    m ≠ .EMPTY ∧ hasLine b m := by
  rw [winner_eq_some_iff] at h
  obtain ⟨c, hc, hlm, -⟩ := h
  rw [lineMark_eq_some_iff] at hlm
  exact ⟨hlm.2.1, c, hc, hlm.2.2⟩

lemma winner_ne_some_EMPTY (b : Board) : winner b ≠ some .EMPTY := by
  intro h
  exact (winner_hasLine h).1 rfl

lemma hasLine_winner_ne_none {b : Board} {m : Cell} (hm : m ≠ .EMPTY)
    (h : hasLine b m) : winner b ≠ none := by
  intro hn
  rw [winner_eq_none_iff] at hn
  obtain ⟨c, hc, hall⟩ := h
  have : lineMark b c = some m := by
    rw [lineMark_eq_some_iff]
    refine ⟨?_, hm, hall⟩
    rintro rfl
    simp [winningConditions] at hc
  rw [hn c hc] at this
  exact absurd this (by simp)

lemma outcomeScore_outcome_eq_utility (b : Board) :
    outcomeScore (outcome b) = utility b := by
  unfold outcome utility
  split_ifs <;> rfl

lemma terminal_eq_false_iff {b : Board} :
    terminal b = false ↔ winner b = none ∧ actions b ≠ [] := by
  unfold terminal
  rcases h : winner b with _ | m <;>
    simp [h, List.isEmpty_iff]

lemma terminal_of_winner_some {b : Board} {m : Cell} (h : winner b = some m) :
    terminal b = true := by
  simp [terminal, h]

lemma outcome_eq_inProgress_iff {b : Board} :
    outcome b = .InProgress ↔ terminal b = false := by
  unfold outcome
  split_ifs with h1 h2 h3
  · rw [terminal_of_winner_some h1]
    simp
  · rw [terminal_of_winner_some h2]
    simp
  · rw [h3]
    simp
  · rw [Bool.not_eq_true] at h3
    rw [h3]
    simp

/-! ## Claim theorems: error handling and frame conditions -/

/-- C3: `result` (the spec's `applyMove`) fails — returns `none`, the
embedding of the thrown `InvalidMoveError` — if and only if a
coordinate of the move lies outside `{0, 1, 2}` or the target cell is
not empty.  `result` is a pure function of type
`Board → Move → Option Board`, so boards are never mutated and a
failing call leaves the caller's board untouched by construction; it
is also the only partial operation of the model (every other operation
is a total function). -/
theorem result_fails_iff_invalid (b : Board) (m : Move) :
    result b m = none ↔
      (m.1 ∉ [0, 1, 2] ∨ m.2 ∉ [0, 1, 2]) ∨ getCell b m.1 m.2 ≠ .EMPTY :=
  result_eq_none_iff b m

/-- C4: on a well-formed board, a valid move (coordinates in range,
target empty) succeeds and produces a board that agrees with the input
everywhere except the target cell, which now holds
`player board` — the mark of the side to move.  The input board is a
pure value and is unchanged by the call. -/
theorem result_valid_updates_only_target (b : Board) (x y : Nat) (hb : wf b)
    (hx : x < 3) (hy : y < 3) (hc : getCell b x y = .EMPTY) :
    ∃ b', result b (x, y) = some b' ∧
      ∀ i j, getCell b' i j =
        if x = i ∧ y = j then player b else getCell b i j := by
  have hblen : b.length = 3 := hb.1
  have hrow : (b.getD x []).length = 3 := by
    have hxlen : x < b.length := hb.1 ▸ hx
    rw [List.getD_eq_getElem?_getD, List.getElem?_eq_getElem hxlen]
    exact hb.2 _ (List.getElem_mem hxlen)
  refine ⟨place b x y (player b), ?_, ?_⟩
  · rw [result_eq_some_iff]
    refine ⟨?_, ?_, hc, rfl⟩
    · simp only [List.mem_cons, List.mem_singleton]
      omega
    · simp only [List.mem_cons, List.mem_singleton]
      omega
  · intro i j
    rw [getCell_place]
    by_cases hij : x = i ∧ y = j
    · rw [if_pos ⟨hij.1, hij.2, by omega, by omega⟩, if_pos hij]
    · rw [if_neg (by tauto), if_neg hij]

/-- Witness for C4 at a concrete input: playing `(0, 0)` on the empty
board places an `X` there and changes nothing else. -/
theorem result_valid_updates_only_target_witness :
    ∃ b', result initialState (0, 0) = some b' ∧
      ∀ i j, getCell b' i j =
        if 0 = i ∧ 0 = j then player initialState
        else getCell initialState i j :=
  result_valid_updates_only_target initialState 0 0 wf_initialState
    (by decide) (by decide) (by decide)

/-! ## Claim theorems: winner detection -/

/-- C8: `winner` scans exactly the eight fixed triples (three rows,
three columns, two diagonals) in their fixed order and yields the
first triple whose three cells are non-empty and identical, together
with the winning mark (`none` when no triple matches); concretely, on
`[[X,X,X],[O,O,_],[_,_,_]]` it yields the top row
`{(0,0), (0,1), (0,2)}` with mark `X`, and `outcome` is `XWins`. -/
theorem winnerLine_first_matching_triple :
    (∀ b c m, lineMark b c = some m ↔
      c ≠ [] ∧ m ≠ .EMPTY ∧ ∀ p ∈ c, getCell b p.1 p.2 = m) ∧
    (∀ b, winnerLine b =
      (winningConditions.find? (fun c => (lineMark b c).isSome)).bind
        (fun c => (lineMark b c).map (fun m => (c, m)))) ∧
    winningConditions =
      [[(0, 0), (0, 1), (0, 2)], [(1, 0), (1, 1), (1, 2)],
       [(2, 0), (2, 1), (2, 2)], [(0, 0), (1, 0), (2, 0)],
       [(0, 1), (1, 1), (2, 1)], [(0, 2), (1, 2), (2, 2)],
       [(0, 0), (1, 1), (2, 2)], [(0, 2), (1, 1), (2, 0)]] ∧
    winnerLine [[.X, .X, .X], [.O, .O, .EMPTY], [.EMPTY, .EMPTY, .EMPTY]] =
      some ([(0, 0), (0, 1), (0, 2)], .X) ∧
    outcome [[.X, .X, .X], [.O, .O, .EMPTY], [.EMPTY, .EMPTY, .EMPTY]] =
      .XWins := by
  refine ⟨fun b c m => lineMark_eq_some_iff, fun b => winnerScan_eq_find? b _,
    rfl, ?_, ?_⟩ <;> decide

/-! ## Claim theorems: concrete search scenarios -/

/-- C7: on `[[X,X,_],[O,O,_],[_,_,_]]` (four occupied cells, so `X` is
to move) the search returns `(0, 2)`, the move completing `X`'s top
row for an immediate win. -/
theorem minimax_takes_immediate_win :
    player [[.X, .X, .EMPTY], [.O, .O, .EMPTY], [.EMPTY, .EMPTY, .EMPTY]] = .X ∧
    minimax [[.X, .X, .EMPTY], [.O, .O, .EMPTY], [.EMPTY, .EMPTY, .EMPTY]] =
      some (0, 2) := by
  constructor
  · rfl
  · rw [← minimaxE_eq]
    decide

/-! ## Counting lemmas and the alternation invariant -/

lemma countP_ne_EMPTY_eq (row : List Cell) :
    row.countP (fun c => c != Cell.EMPTY) = row.count .X + row.count .O := by
  induction row with
  | nil => rfl
  | cons c rest ih =>
    cases c <;> simp [List.countP_cons, List.count_cons, ih] <;> omega

lemma occupiedCount_eq_counts (b : Board) :
    occupiedCount b = countMark b .X + countMark b .O := by
  unfold occupiedCount countMark
  induction b with
  | nil => rfl
  | cons row rest ih =>
    simp only [List.map_cons, List.sum_cons]
    rw [countP_ne_EMPTY_eq row]
    omega

lemma count_set_of_get_EMPTY {row : List Cell} {j : Nat} (hj : j < row.length)
    (hc : row.getD j .EMPTY = .EMPTY) (v m : Cell) (hm : m ≠ .EMPTY) :
    (row.set j v).count m = row.count m + (if v = m then 1 else 0) := by
  induction row generalizing j with
  | nil => simp at hj
  | cons c rest ih =>
    cases j with
    | zero =>
      simp only [List.getD_cons_zero] at hc
      subst hc
      have hEM : (Cell.EMPTY == m) = false := by
        cases m
        · exact absurd rfl hm
        · rfl
        · rfl
      by_cases hvm : v = m
      · subst hvm
        simp [List.count_cons, hEM]
      · simp [List.count_cons, hEM, hvm]
    | succ j' =>
      simp only [List.getD_cons_succ] at hc
      simp only [List.set_cons_succ, List.count_cons]
      rw [ih (by simpa using hj) hc]
      omega

lemma countMark_place {b : Board} {x y : Nat} (hx : x < b.length)
    (hy : y < (b.getD x []).length) (hc : getCell b x y = .EMPTY)
    (v m : Cell) (hm : m ≠ .EMPTY) :
    countMark (place b x y v) m = countMark b m + (if v = m then 1 else 0) := by
  unfold countMark place
  unfold getCell at hc
  induction b generalizing x with
  | nil => simp at hx
  | cons row rest ih =>
    cases x with
    | zero =>
      simp only [List.getD_cons_zero] at hc hy ⊢
      simp only [List.set_cons_zero, List.map_cons, List.sum_cons]
      rw [count_set_of_get_EMPTY hy hc v m hm]
      omega
    | succ x' =>
      simp only [List.getD_cons_succ] at hc hy ⊢
      simp only [List.set_cons_succ, List.map_cons, List.sum_cons]
      rw [ih (by simpa using hx) hy hc]
      omega

lemma player_eq_X_iff (b : Board) :
    player b = .X ↔ occupiedCount b % 2 = 0 := by
  unfold player
  split_ifs with h <;> simp [h]

/-- C10: along any sequence of successful `result` calls from the
initial board, the number of `X` marks equals the number of `O` marks
or exceeds it by exactly one, and the side to move is `X` exactly when
the number of occupied cells is even — `X` moves first and the placed
marks strictly alternate. -/
theorem reachable_marks_alternate (b : Board) (h : ResultReach b) :
    (countMark b .X = countMark b .O ∨
      countMark b .X = countMark b .O + 1) ∧
    (player b = .X ↔ occupiedCount b % 2 = 0) := by
  refine ⟨?_, player_eq_X_iff b⟩
  induction h with
  | init => left; rfl
  | step hr hres ih =>
    rename_i board board' m
    have hb : wf board := wf_of_resultReach hr
    rw [result_eq_some_iff] at hres
    obtain ⟨hx3, hy3, hc, rfl⟩ := hres
    have hx3' : m.1 = 0 ∨ m.1 = 1 ∨ m.1 = 2 := by simpa using hx3
    have hy3' : m.2 = 0 ∨ m.2 = 1 ∨ m.2 = 2 := by simpa using hy3
    have hblen : board.length = 3 := hb.1
    have hx : m.1 < board.length := by
      rcases hx3' with h | h | h <;> omega
    have hrowlen : (board.getD m.1 []).length = 3 := by
      rw [List.getD_eq_getElem?_getD, List.getElem?_eq_getElem hx]
      exact hb.2 _ (List.getElem_mem hx)
    have hy : m.2 < (board.getD m.1 []).length := by
      rcases hy3' with h | h | h <;> omega
    have hX := countMark_place hx hy hc (player board) Cell.X (by decide)
    have hO := countMark_place hx hy hc (player board) Cell.O (by decide)
    have hocc := occupiedCount_eq_counts board
    have hpXO : player board = .X ∨ player board = .O := by
      unfold player
      split_ifs <;> simp
    rcases hpXO with hp | hp
    · have heven := (player_eq_X_iff board).mp hp
      have hXO : countMark board .X = countMark board .O := by
        rcases ih with h | h
        · exact h
        · omega
      right
      rw [hX, hO, hp]
      simp only [reduceCtorEq, if_true, if_false, reduceIte]
      omega
    · have hne : player board ≠ .X := by
        rw [hp]
        decide
      have hodd : ¬ occupiedCount board % 2 = 0 := fun h =>
        hne ((player_eq_X_iff board).mpr h)
      have hXO : countMark board .X = countMark board .O + 1 := by
        rcases ih with h | h
        · exact absurd (by omega) hodd
        · exact h
      left
      rw [hX, hO, hp]
      simp only [reduceCtorEq, if_true, if_false, reduceIte]
      omega

/-- Witness for C10 at a concrete input: the initial board. -/
theorem reachable_marks_alternate_witness :
    (countMark initialState .X = countMark initialState .O ∨
      countMark initialState .X = countMark initialState .O + 1) ∧
    (player initialState = .X ↔ occupiedCount initialState % 2 = 0) :=
  reachable_marks_alternate initialState ResultReach.init

/-! ## Outcome classification (C9) -/

lemma hasLine_place_cases {board : Board} {x y : Nat}
    (hx : x < board.length) (hy : y < (board.getD x []).length) {v m : Cell}
    (h : hasLine (place board x y v) m) :
    hasLine board m ∨ m = v := by
  obtain ⟨c, hc, hall⟩ := h
  by_cases hmem : (x, y) ∈ c
  · right
    have hcell := hall (x, y) hmem
    rw [getCell_place, if_pos ⟨rfl, rfl, hx, hy⟩] at hcell
    exact hcell.symm
  · left
    refine ⟨c, hc, fun p hp => ?_⟩
    have hne : ¬ (x = p.1 ∧ y = p.2) := by
      rintro ⟨h1, h2⟩
      apply hmem
      have hpeq : p = (x, y) := by
        obtain ⟨p1, p2⟩ := p
        simp_all
      rwa [← hpeq]
    have hcell := hall p hp
    rwa [getCell_place, if_neg (by tauto)] at hcell

lemma no_hasLine_of_winner_none {b : Board} (hn : winner b = none) {m : Cell}
    (hm : m ≠ .EMPTY) : ¬ hasLine b m :=
  fun h => hasLine_winner_ne_none hm h hn

lemma not_both_lines_of_legalReach {b : Board} (h : LegalReach b) :
    ¬ (hasLine b .X ∧ hasLine b .O) := by
  induction h with
  | init => decide
  | step hr hterm hres ih =>
    rename_i board board' m
    have hb : wf board := wf_of_legalReach hr
    rw [result_eq_some_iff] at hres
    obtain ⟨hx3, hy3, hc, rfl⟩ := hres
    have hx3' : m.1 = 0 ∨ m.1 = 1 ∨ m.1 = 2 := by simpa using hx3
    have hy3' : m.2 = 0 ∨ m.2 = 1 ∨ m.2 = 2 := by simpa using hy3
    have hblen : board.length = 3 := hb.1
    have hx : m.1 < board.length := by
      rcases hx3' with h | h | h <;> omega
    have hrowlen : (board.getD m.1 []).length = 3 := by
      rw [List.getD_eq_getElem?_getD, List.getElem?_eq_getElem hx]
      exact hb.2 _ (List.getElem_mem hx)
    have hy : m.2 < (board.getD m.1 []).length := by
      rcases hy3' with h | h | h <;> omega
    have hwn : winner board = none := (terminal_eq_false_iff.mp hterm).1
    rintro ⟨hX, hO⟩
    rcases hasLine_place_cases hx hy hX with hlX | hpX
    · exact no_hasLine_of_winner_none hwn (by decide) hlX
    · rcases hasLine_place_cases hx hy hO with hlO | hpO
      · exact no_hasLine_of_winner_none hwn (by decide) hlO
      · rw [← hpO] at hpX
        exact absurd hpX (by decide)

lemma winner_eq_some_X_iff_of_legalReach {b : Board} (h : LegalReach b) :
    winner b = some .X ↔ hasLine b .X := by
  constructor
  · intro hw
    exact (winner_hasLine hw).2
  · intro hl
    have hne := hasLine_winner_ne_none (m := Cell.X) (by decide) hl
    rcases hw : winner b with _ | m'
    · exact absurd hw hne
    · cases m' with
      | EMPTY => exact absurd hw (winner_ne_some_EMPTY b)
      | X => rfl
      | O =>
        exact absurd ⟨hl, (winner_hasLine hw).2⟩ (not_both_lines_of_legalReach h)

lemma winner_eq_some_O_iff_of_legalReach {b : Board} (h : LegalReach b) :
    winner b = some .O ↔ hasLine b .O := by
  constructor
  · intro hw
    exact (winner_hasLine hw).2
  · intro hl
    have hne := hasLine_winner_ne_none (m := Cell.O) (by decide) hl
    rcases hw : winner b with _ | m'
    · exact absurd hw hne
    · cases m' with
      | EMPTY => exact absurd hw (winner_ne_some_EMPTY b)
      | X =>
        exact absurd ⟨(winner_hasLine hw).2, hl⟩ (not_both_lines_of_legalReach h)
      | O => rfl

lemma winner_eq_none_iff_no_lines {b : Board} :
    winner b = none ↔ ¬ hasLine b .X ∧ ¬ hasLine b .O := by
  constructor
  · intro hw
    exact ⟨no_hasLine_of_winner_none hw (by decide),
      no_hasLine_of_winner_none hw (by decide)⟩
  · rintro ⟨hX, hO⟩
    rcases hw : winner b with _ | m'
    · rfl
    · cases m' with
      | EMPTY => exact absurd hw (winner_ne_some_EMPTY b)
      | X => exact absurd (winner_hasLine hw).2 hX
      | O => exact absurd (winner_hasLine hw).2 hO

/-- C9: on every board reachable by legal play, `outcome` is the
four-way classification: `XWins` exactly when a winning line of `X`
exists, `OWins` exactly when a winning line of `O` exists, `Draw`
exactly when the board is terminal with no winning line, and
`InProgress` exactly when the board is not terminal — so a drawn
terminal board is distinguished from an unfinished one. -/
theorem outcome_four_way_classification (b : Board) (h : LegalReach b) :
    (outcome b = .XWins ↔ hasLine b .X) ∧
    (outcome b = .OWins ↔ hasLine b .O) ∧
    (outcome b = .Draw ↔
      terminal b = true ∧ ¬ hasLine b .X ∧ ¬ hasLine b .O) ∧
    (outcome b = .InProgress ↔ terminal b = false) := by
  refine ⟨?_, ?_, ?_, outcome_eq_inProgress_iff⟩
  · rw [← winner_eq_some_X_iff_of_legalReach h]
    unfold outcome
    split_ifs with h1 h2 h3 <;> simp_all
  · rw [← winner_eq_some_O_iff_of_legalReach h]
    unfold outcome
    split_ifs with h1 h2 h3 <;> simp_all
  · rw [← winner_eq_none_iff_no_lines]
    unfold outcome
    split_ifs with h1 h2 h3
    · simp [h1]
    · simp [h2]
    · have hwn : winner b = none := by
        rcases hw : winner b with _ | m'
        · rfl
        · cases m' with
          | EMPTY => exact absurd hw (winner_ne_some_EMPTY b)
          | X => exact absurd hw h1
          | O => exact absurd hw h2
      simp [h3, hwn]
    · simp [h3]

/-- Witness for C9 at a concrete input: the initial board. -/
theorem outcome_four_way_classification_witness :
    (outcome initialState = .XWins ↔ hasLine initialState .X) ∧
    (outcome initialState = .OWins ↔ hasLine initialState .O) ∧
    (outcome initialState = .Draw ↔
      terminal initialState = true ∧
        ¬ hasLine initialState .X ∧ ¬ hasLine initialState .O) ∧
    (outcome initialState = .InProgress ↔ terminal initialState = false) :=
  outcome_four_way_classification initialState LegalReach.init

/-! ## Extended-integer order facts and clamp lemmas -/

lemma EInt.negInf_le (a : EInt) : EInt.negInf ≤ a := by
  cases a <;> simp [EInt.le_def, EInt.ble]

lemma EInt.le_posInf (a : EInt) : a ≤ EInt.posInf := by
  cases a <;> simp [EInt.le_def, EInt.ble]

lemma EInt.lt_posInf_of_ne {a : EInt} (h : a ≠ EInt.posInf) : a < EInt.posInf := by
  cases a
  · simp [EInt.lt_def, EInt.ble]
  · simp [EInt.lt_def, EInt.ble]
  · exact absurd rfl h

lemma EInt.fin_lt_posInf (v : Int) : EInt.fin v < EInt.posInf := by
  simp [EInt.lt_def, EInt.ble]

lemma EInt.negInf_lt_fin (v : Int) : EInt.negInf < EInt.fin v := by
  simp [EInt.lt_def, EInt.ble]

lemma EInt.fin_le_fin {x y : Int} : EInt.fin x ≤ EInt.fin y ↔ x ≤ y := by
  simp [EInt.le_def, EInt.ble]

lemma EInt.fin_max (x y : Int) :
    EInt.fin (max x y) = max (EInt.fin x) (EInt.fin y) := by
  rcases le_total x y with h | h
  · rw [max_eq_right h, max_eq_right (EInt.fin_le_fin.mpr h)]
  · rw [max_eq_left h, max_eq_left (EInt.fin_le_fin.mpr h)]

lemma EInt.fin_min (x y : Int) :
    EInt.fin (min x y) = min (EInt.fin x) (EInt.fin y) := by
  rcases le_total x y with h | h
  · rw [min_eq_left h, min_eq_left (EInt.fin_le_fin.mpr h)]
  · rw [min_eq_right h, min_eq_right (EInt.fin_le_fin.mpr h)]

lemma clamp_of_le {alpha beta r : EInt} (hab : alpha ≤ beta) (h : r ≤ alpha) :
    clamp alpha beta r = alpha := by
  rw [clamp, max_eq_right h, min_eq_left hab]

lemma clamp_of_ge {alpha beta r : EInt} (h : beta ≤ r) :
    clamp alpha beta r = beta := by
  rw [clamp, min_eq_right (le_trans h (le_max_left r alpha))]

lemma clamp_of_between {alpha beta r : EInt} (h1 : alpha ≤ r) (h2 : r ≤ beta) :
    clamp alpha beta r = r := by
  rw [clamp, max_eq_left h1, min_eq_left h2]

lemma clamp_bot_top (r : EInt) : clamp EInt.negInf EInt.posInf r = r := by
  rw [clamp, max_eq_left (EInt.negInf_le r), min_eq_left (EInt.le_posInf r)]

lemma clamp_top (alpha r : EInt) : clamp alpha EInt.posInf r = max r alpha := by
  rw [clamp, min_eq_left (EInt.le_posInf _)]

/-! ## Occupancy and fuel lemmas -/

lemma occupiedCount_place {b : Board} {x y : Nat} (hx : x < b.length)
    (hy : y < (b.getD x []).length) (hc : getCell b x y = .EMPTY)
    {v : Cell} (hv : v ≠ .EMPTY) :
    occupiedCount (place b x y v) = occupiedCount b + 1 := by
  rw [occupiedCount_eq_counts, occupiedCount_eq_counts,
    countMark_place hx hy hc v .X (by decide),
    countMark_place hx hy hc v .O (by decide)]
  cases v with
  | EMPTY => exact absurd rfl hv
  | X => simp <;> omega
  | O => simp <;> omega

lemma occupiedCount_add_empty {b : Board} (hb : wf b) :
    occupiedCount b + countMark b .EMPTY = 9 := by
  obtain ⟨hlen, hrows⟩ := hb
  have hrow : ∀ row : List Cell, row.countP (fun c => c != Cell.EMPTY) +
      row.count .EMPTY = row.length := by
    intro row
    induction row with
    | nil => rfl
    | cons c rest ih =>
      cases c <;> simp [List.countP_cons, List.count_cons] <;> omega
  unfold occupiedCount countMark
  rcases b with _ | ⟨r0, b⟩
  · simp at hlen
  rcases b with _ | ⟨r1, b⟩
  · simp at hlen
  rcases b with _ | ⟨r2, b⟩
  · simp at hlen
  rcases b with _ | ⟨r3, b⟩
  · simp only [List.map_cons, List.map_nil, List.sum_cons, List.sum_nil]
    have h0 := hrow r0
    have h1 := hrow r1
    have h2 := hrow r2
    rw [hrows r0 (by simp), hrows r1 (by simp), hrows r2 (by simp)] at *
    omega
  · simp at hlen

lemma getD_mem {α : Type} {l : List α} {n : Nat} (h : n < l.length) (d : α) :
    l.getD n d ∈ l := by
  rw [List.getD_eq_getElem?_getD, List.getElem?_eq_getElem h]
  simp only [Option.getD_some]
  exact List.getElem_mem h

lemma mem_actions_countEMPTY_pos {b : Board} {a : Move} (ha : a ∈ actions b) :
    0 < countMark b .EMPTY := by
  obtain ⟨i, j⟩ := a
  rw [mem_actions_iff] at ha
  obtain ⟨hi, hj, hc⟩ := ha
  have hrowmem : b.getD i [] ∈ b := getD_mem hi []
  have hcellmem : Cell.EMPTY ∈ b.getD i [] := by
    have hmem := getD_mem hj Cell.EMPTY
    unfold getCell at hc
    rwa [hc] at hmem
  unfold countMark
  have hpos : 0 < (b.getD i []).count .EMPTY := List.count_pos_iff.mpr hcellmem
  calc 0 < (b.getD i []).count .EMPTY := hpos
    _ ≤ ((b.map (fun row => row.count .EMPTY))).sum := by
        exact List.single_le_sum (by simp) _ (List.mem_map.mpr ⟨_, hrowmem, rfl⟩)

lemma occupiedCount_lt_of_nonterminal {b : Board} (hb : wf b)
    (ht : terminal b = false) : occupiedCount b < 9 := by
  have hne : actions b ≠ [] := (terminal_eq_false_iff.mp ht).2
  rcases hact : actions b with _ | ⟨a, rest⟩
  · exact absurd hact hne
  · have := mem_actions_countEMPTY_pos (a := a) (by rw [hact]; simp)
    have := occupiedCount_add_empty hb
    omega

lemma actions_eq_nil_of_full {b : Board} (hb : wf b)
    (h : 9 ≤ occupiedCount b) : actions b = [] := by
  rcases hact : actions b with _ | ⟨a, rest⟩
  · rfl
  · have := mem_actions_countEMPTY_pos (a := a) (by rw [hact]; simp)
    have := occupiedCount_add_empty hb
    omega

lemma terminal_of_full {b : Board} (hb : wf b) (h : 9 ≤ occupiedCount b) :
    terminal b = true := by
  unfold terminal
  rw [actions_eq_nil_of_full hb h]
  simp

lemma player_place {b : Board} {x y : Nat} (hx : x < b.length)
    (hy : y < (b.getD x []).length) (hc : getCell b x y = .EMPTY)
    {v : Cell} (hv : v ≠ .EMPTY) :
    player (place b x y v) = if player b = .X then .O else .X := by
  have hocc := occupiedCount_place hx hy hc hv
  unfold player
  rw [hocc]
  by_cases hpar : occupiedCount b % 2 = 0
  · have h1 : ¬ (occupiedCount b + 1) % 2 = 0 := by omega
    simp [hpar, h1]
  · have h1 : (occupiedCount b + 1) % 2 = 0 := by omega
    simp [hpar, h1]

/-! ## The alpha-beta loop invariant (maximizing side) -/

lemma if_lt_eq_max (M v : EInt) : (if M < v then v else M) = max M v := by
  split_ifs with h
  · exact (max_eq_right h.le).symm
  · exact (max_eq_left (not_lt.mp h)).symm

lemma if_gt_eq_min (M v : EInt) : (if v < M then v else M) = min M v := by
  split_ifs with h
  · exact (min_eq_right h.le).symm
  · exact (min_eq_left (not_lt.mp h)).symm

lemma maxLoop_cons (child : Move → EInt → EInt → EInt) (a : Move)
    (rest : List Move) (alpha beta M : EInt) (best : Option Move) :
    maxLoop child (a :: rest) alpha beta M best =
      if beta ≤ max alpha (max M (child a alpha beta)) then
        (max M (child a alpha beta),
          if M < child a alpha beta then some a else best)
      else
        maxLoop child rest (max alpha (max M (child a alpha beta))) beta
          (max M (child a alpha beta))
          (if M < child a alpha beta then some a else best) := by
  simp only [maxLoop, if_lt_eq_max]

lemma minLoop_cons (child : Move → EInt → EInt → EInt) (a : Move)
    (rest : List Move) (alpha beta M : EInt) (best : Option Move) :
    minLoop child (a :: rest) alpha beta M best =
      if min beta (min M (child a alpha beta)) ≤ alpha then
        (min M (child a alpha beta),
          if child a alpha beta < M then some a else best)
      else
        minLoop child rest alpha (min beta (min M (child a alpha beta)))
          (min M (child a alpha beta))
          (if child a alpha beta < M then some a else best) := by
  simp only [minLoop, if_gt_eq_min]

lemma le_foldl_max (f : Move → EInt) :
    ∀ (l : List Move) (M : EInt),
      M ≤ l.foldl (fun acc a => max acc (f a)) M
  | [], M => le_refl M
  | a :: rest, M =>
    le_trans (le_max_left M (f a)) (le_foldl_max f rest (max M (f a)))

lemma foldl_min_le (f : Move → EInt) :
    ∀ (l : List Move) (M : EInt),
      l.foldl (fun acc a => min acc (f a)) M ≤ M
  | [], M => le_refl M
  | a :: rest, M =>
    le_trans (foldl_min_le f rest (min M (f a))) (min_le_left M (f a))

lemma foldl_max_below_or_eq (f : Move → EInt) (alpha : EInt) :
    ∀ (l : List Move) (acc1 acc2 : EInt), acc1 ≤ alpha → acc2 ≤ alpha →
      (l.foldl (fun acc a => max acc (f a)) acc1 ≤ alpha ∧
        l.foldl (fun acc a => max acc (f a)) acc2 ≤ alpha) ∨
      l.foldl (fun acc a => max acc (f a)) acc1 =
        l.foldl (fun acc a => max acc (f a)) acc2 := by
  intro l
  induction l with
  | nil => exact fun acc1 acc2 h1 h2 => Or.inl ⟨h1, h2⟩
  | cons a rest ih =>
    intro acc1 acc2 h1 h2
    simp only [List.foldl_cons]
    by_cases hfa : f a ≤ alpha
    · exact ih _ _ (max_le h1 hfa) (max_le h2 hfa)
    · right
      rw [max_eq_right (le_trans h1 (not_le.mp hfa).le),
        max_eq_right (le_trans h2 (not_le.mp hfa).le)]

lemma foldl_min_above_or_eq (f : Move → EInt) (beta : EInt) :
    ∀ (l : List Move) (acc1 acc2 : EInt), beta ≤ acc1 → beta ≤ acc2 →
      (beta ≤ l.foldl (fun acc a => min acc (f a)) acc1 ∧
        beta ≤ l.foldl (fun acc a => min acc (f a)) acc2) ∨
      l.foldl (fun acc a => min acc (f a)) acc1 =
        l.foldl (fun acc a => min acc (f a)) acc2 := by
  intro l
  induction l with
  | nil => exact fun acc1 acc2 h1 h2 => Or.inl ⟨h1, h2⟩
  | cons a rest ih =>
    intro acc1 acc2 h1 h2
    simp only [List.foldl_cons]
    by_cases hfa : beta ≤ f a
    · exact ih _ _ (le_min h1 hfa) (le_min h2 hfa)
    · right
      rw [min_eq_right (le_trans (not_le.mp hfa).le h1),
        min_eq_right (le_trans (not_le.mp hfa).le h2)]

lemma maxLoop_fst_ge (child : Move → EInt → EInt → EInt) :
    ∀ (l : List Move) (alpha beta M : EInt) (best : Option Move),
      M ≤ (maxLoop child l alpha beta M best).1 := by
  intro l
  induction l with
  | nil => intro alpha beta M best; exact le_refl M
  | cons a rest ih =>
    intro alpha beta M best
    rw [maxLoop_cons]
    by_cases hbr : beta ≤ max alpha (max M (child a alpha beta))
    · rw [if_pos hbr]
      exact le_max_left _ _
    · rw [if_neg hbr]
      exact le_trans (le_max_left M (child a alpha beta)) (ih _ _ _ _)

lemma minLoop_fst_le (child : Move → EInt → EInt → EInt) :
    ∀ (l : List Move) (alpha beta M : EInt) (best : Option Move),
      (minLoop child l alpha beta M best).1 ≤ M := by
  intro l
  induction l with
  | nil => intro alpha beta M best; exact le_refl M
  | cons a rest ih =>
    intro alpha beta M best
    rw [minLoop_cons]
    by_cases hbr : min beta (min M (child a alpha beta)) ≤ alpha
    · rw [if_pos hbr]
      exact min_le_left _ _
    · rw [if_neg hbr]
      exact le_trans (ih _ _ _ _) (min_le_left M (child a alpha beta))

lemma clamp_eq_min_of_ge {alpha beta x : EInt} (h : alpha ≤ x) :
    clamp alpha beta x = min x beta := by
  rw [clamp, max_eq_left h]

lemma clamp_eq_max_of_le {alpha beta x : EInt} (h : x ≤ beta)
    (hab : alpha ≤ beta) : clamp alpha beta x = max x alpha := by
  rw [clamp]
  rcases le_total x alpha with hxa | hxa
  · rw [max_eq_right hxa, min_eq_left hab]
  · rw [max_eq_left hxa, min_eq_left h]

lemma maxLoop_clamp (child : Move → EInt → EInt → EInt) (w : Move → Int)
    (beta : EInt) :
    ∀ (l : List Move),
      (∀ a ∈ l, ∀ alpha', alpha' < beta →
        clamp alpha' beta (child a alpha' beta) =
          clamp alpha' beta (.fin (w a))) →
      ∀ (alpha M : EInt) (best : Option Move), M ≤ alpha → alpha < beta →
        clamp alpha beta (maxLoop child l alpha beta M best).1 =
          clamp alpha beta (l.foldl (fun acc a => max acc (.fin (w a))) M) := by
  intro l
  induction l with
  | nil => intro _ alpha M best _ _; rfl
  | cons a rest ih =>
    intro hchild alpha M best hMa hab
    have hv := hchild a (List.mem_cons_self a rest) alpha hab
    set v := child a alpha beta with hvdef
    rw [maxLoop_cons, List.foldl_cons]
    have hMv : max alpha (max M v) = max alpha v := by
      rw [max_comm M v, ← max_assoc, max_comm alpha v, max_assoc,
        max_eq_left hMa, max_comm v alpha]
    by_cases hbr : beta ≤ max alpha (max M v)
    · -- pruning: beta ≤ max alpha (max M v) and alpha < beta force beta ≤ v
      rw [if_pos hbr]
      rw [hMv] at hbr
      have hvb : beta ≤ v := by
        rcases le_or_lt beta v with h | h
        · exact h
        · rcases max_cases alpha v with ⟨he, -⟩ | ⟨he, -⟩ <;> rw [he] at hbr
          · exact absurd hbr (not_le.mpr hab)
          · exact absurd hbr (not_le.mpr h)
      have hwb : beta ≤ EInt.fin (w a) := by
        rw [clamp_of_ge hvb] at hv
        by_contra hlt
        have halw : alpha ≤ EInt.fin (w a) := by
          by_contra halw
          rw [clamp_of_le hab.le (not_le.mp halw).le] at hv
          exact absurd hv.symm (ne_of_lt hab)
        rw [clamp_eq_min_of_ge halw,
          min_eq_left (not_le.mp hlt).le] at hv
        exact absurd hv.symm (ne_of_lt (not_le.mp hlt))
      have hMvb : beta ≤ max M v := le_trans hvb (le_max_right M v)
      have hfoldb : beta ≤ rest.foldl (fun acc a => max acc (.fin (w a)))
          (max M (.fin (w a))) :=
        le_trans (le_trans hwb (le_max_right M _))
          (le_foldl_max (fun a => .fin (w a)) rest (max M (.fin (w a))))
      exact (clamp_of_ge hMvb).trans (clamp_of_ge hfoldb).symm
    · rw [if_neg hbr]
      rw [hMv] at hbr
      have hbr' : max alpha v < beta := not_le.mp hbr
      rcases le_or_lt v alpha with hva | hva
      · -- child failed low: alpha does not move
        have hMv2 : max M v ≤ alpha := max_le hMa hva
        have halpha : max alpha (max M v) = alpha := max_eq_left hMv2
        have hwa : EInt.fin (w a) ≤ alpha := by
          rw [clamp_of_le hab.le hva] at hv
          by_contra hlt
          have hgt : alpha < EInt.fin (w a) := not_le.mp hlt
          rw [clamp_eq_min_of_ge hgt.le] at hv
          rcases min_cases (EInt.fin (w a)) beta with ⟨he, hle⟩ | ⟨he, hle⟩ <;>
            rw [he] at hv
          · exact absurd hv (ne_of_lt hgt)
          · exact absurd hv (ne_of_lt hab)
        rw [halpha]
        rw [ih (fun a' ha' => hchild a' (List.mem_cons_of_mem a ha'))
          alpha (max M v) _ hMv2 hab]
        have hacc2 : max M (EInt.fin (w a)) ≤ alpha := max_le hMa hwa
        rcases foldl_max_below_or_eq (fun a => EInt.fin (w a)) alpha rest
            (max M v) (max M (EInt.fin (w a))) hMv2 hacc2 with ⟨hle1, hle2⟩ | heq
        · rw [clamp_of_le hab.le hle1, clamp_of_le hab.le hle2]
        · rw [heq]
      · -- child improved: exact value, alpha rises to v
        have hvb : v < beta := lt_of_le_of_lt (le_max_right alpha v) hbr'
        have hwa : EInt.fin (w a) = v := by
          rw [clamp_of_between hva.le hvb.le] at hv
          by_cases hw1 : EInt.fin (w a) ≤ alpha
          · rw [clamp_of_le hab.le hw1] at hv
            exact absurd hv.symm (ne_of_lt hva)
          · rw [clamp_eq_min_of_ge (not_le.mp hw1).le] at hv
            rcases min_cases (EInt.fin (w a)) beta with ⟨he, hle⟩ | ⟨he, hle⟩ <;>
              rw [he] at hv
            · exact hv.symm
            · exact absurd hv (ne_of_lt hvb)
        have hMveq : max M v = v := max_eq_right (le_trans hMa hva.le)
        have halpha : max alpha (max M v) = v := by
          rw [hMveq, max_eq_right hva.le]
        rw [halpha, hMveq, hwa, hMveq]
        have hrec := ih (fun a' ha' => hchild a' (List.mem_cons_of_mem a ha'))
          v v (if M < v then some a else best) (le_refl v) hvb
        have hres_ge : v ≤ (maxLoop child rest v beta v
            (if M < v then some a else best)).1 :=
          maxLoop_fst_ge child rest _ _ _ _
        have hfold_ge : v ≤ rest.foldl (fun acc a => max acc (.fin (w a))) v :=
          le_foldl_max _ rest v
        calc clamp alpha beta (maxLoop child rest v beta v
              (if M < v then some a else best)).1
            = min (maxLoop child rest v beta v
                (if M < v then some a else best)).1 beta :=
              clamp_eq_min_of_ge (le_trans hva.le hres_ge)
          _ = clamp v beta (maxLoop child rest v beta v
                (if M < v then some a else best)).1 :=
              (clamp_eq_min_of_ge hres_ge).symm
          _ = clamp v beta (rest.foldl (fun acc a => max acc (.fin (w a))) v) :=
              hrec
          _ = min (rest.foldl (fun acc a => max acc (.fin (w a))) v) beta :=
              clamp_eq_min_of_ge hfold_ge
          _ = clamp alpha beta
                (rest.foldl (fun acc a => max acc (.fin (w a))) v) :=
              (clamp_eq_min_of_ge (le_trans hva.le hfold_ge)).symm

/-! ## The alpha-beta loop invariant (minimizing side) -/

lemma minLoop_clamp (child : Move → EInt → EInt → EInt) (w : Move → Int)
    (alpha : EInt) :
    ∀ (l : List Move),
      (∀ a ∈ l, ∀ beta', alpha < beta' →
        clamp alpha beta' (child a alpha beta') =
          clamp alpha beta' (.fin (w a))) →
      ∀ (beta M : EInt) (best : Option Move), beta ≤ M → alpha < beta →
        clamp alpha beta (minLoop child l alpha beta M best).1 =
          clamp alpha beta (l.foldl (fun acc a => min acc (.fin (w a))) M) := by
  intro l
  induction l with
  | nil => intro _ beta M best _ _; rfl
  | cons a rest ih =>
    intro hchild beta M best hbM hab
    have hv := hchild a (List.mem_cons_self a rest) beta hab
    set v := child a alpha beta with hvdef
    rw [minLoop_cons, List.foldl_cons]
    have hMv : min beta (min M v) = min beta v := by
      rw [min_comm M v, ← min_assoc, min_comm beta v, min_assoc,
        min_eq_left hbM, min_comm v beta]
    by_cases hbr : min beta (min M v) ≤ alpha
    · -- pruning: min beta v ≤ alpha and alpha < beta force v ≤ alpha
      rw [if_pos hbr]
      rw [hMv] at hbr
      have hva : v ≤ alpha := by
        rcases le_or_lt v alpha with h | h
        · exact h
        · rcases min_cases beta v with ⟨he, -⟩ | ⟨he, -⟩ <;> rw [he] at hbr
          · exact absurd hbr (not_le.mpr hab)
          · exact absurd hbr (not_le.mpr h)
      have hwa : EInt.fin (w a) ≤ alpha := by
        rw [clamp_of_le hab.le hva] at hv
        by_contra hlt
        have hgt : alpha < EInt.fin (w a) := not_le.mp hlt
        rw [clamp_eq_min_of_ge hgt.le] at hv
        rcases min_cases (EInt.fin (w a)) beta with ⟨he, hle⟩ | ⟨he, hle⟩ <;>
          rw [he] at hv
        · exact absurd hv (ne_of_lt hgt)
        · exact absurd hv (ne_of_lt hab)
      have hMva : min M v ≤ alpha := le_trans (min_le_right M v) hva
      have hfolda : rest.foldl (fun acc a => min acc (.fin (w a)))
          (min M (.fin (w a))) ≤ alpha :=
        le_trans (foldl_min_le (fun a => .fin (w a)) rest (min M (.fin (w a))))
          (le_trans (min_le_right M _) hwa)
      exact (clamp_of_le hab.le hMva).trans (clamp_of_le hab.le hfolda).symm
    · rw [if_neg hbr]
      rw [hMv] at hbr
      have hbr' : alpha < min beta v := not_le.mp hbr
      rcases le_or_lt beta v with hvb | hvb
      · -- child failed high: beta does not move
        have hMv2 : beta ≤ min M v := le_min hbM hvb
        have hbeta : min beta (min M v) = beta := min_eq_left hMv2
        have hwb : beta ≤ EInt.fin (w a) := by
          rw [clamp_of_ge hvb] at hv
          by_contra hlt
          have halw : alpha ≤ EInt.fin (w a) := by
            by_contra halw
            rw [clamp_of_le hab.le (not_le.mp halw).le] at hv
            exact absurd hv.symm (ne_of_lt hab)
          rw [clamp_eq_min_of_ge halw,
            min_eq_left (not_le.mp hlt).le] at hv
          exact absurd hv.symm (ne_of_lt (not_le.mp hlt))
        rw [hbeta]
        rw [ih (fun a' ha' => hchild a' (List.mem_cons_of_mem a ha'))
          beta (min M v) _ hMv2 hab]
        have hacc2 : beta ≤ min M (EInt.fin (w a)) := le_min hbM hwb
        rcases foldl_min_above_or_eq (fun a => EInt.fin (w a)) beta rest
            (min M v) (min M (EInt.fin (w a))) hMv2 hacc2 with ⟨hle1, hle2⟩ | heq
        · rw [clamp_of_ge hle1, clamp_of_ge hle2]
        · rw [heq]
      · -- child improved: exact value, beta falls to v
        have hva : alpha < v := lt_of_lt_of_le hbr' (min_le_right beta v)
        have hwa : EInt.fin (w a) = v := by
          rw [clamp_of_between hva.le hvb.le] at hv
          by_cases hw1 : EInt.fin (w a) ≤ alpha
          · rw [clamp_of_le hab.le hw1] at hv
            exact absurd hv.symm (ne_of_lt hva)
          · rw [clamp_eq_min_of_ge (not_le.mp hw1).le] at hv
            rcases min_cases (EInt.fin (w a)) beta with ⟨he, hle⟩ | ⟨he, hle⟩ <;>
              rw [he] at hv
            · exact hv.symm
            · exact absurd hv (ne_of_lt hvb)
        have hMveq : min M v = v := min_eq_right (le_trans hvb.le hbM)
        have hbeta : min beta (min M v) = v := by
          rw [hMveq, min_eq_right hvb.le]
        rw [hbeta, hMveq, hwa, hMveq]
        have hrec := ih (fun a' ha' => hchild a' (List.mem_cons_of_mem a ha'))
          v v (if v < M then some a else best) (le_refl v) hva
        have hres_le : (minLoop child rest alpha v v
            (if v < M then some a else best)).1 ≤ v :=
          minLoop_fst_le child rest _ _ _ _
        have hfold_le : rest.foldl (fun acc a => min acc (.fin (w a))) v ≤ v :=
          foldl_min_le _ rest v
        calc clamp alpha beta (minLoop child rest alpha v v
              (if v < M then some a else best)).1
            = max (minLoop child rest alpha v v
                (if v < M then some a else best)).1 alpha :=
              clamp_eq_max_of_le (le_trans hres_le hvb.le) hab.le
          _ = clamp alpha v (minLoop child rest alpha v v
                (if v < M then some a else best)).1 :=
              (clamp_eq_max_of_le hres_le hva.le).symm
          _ = clamp alpha v (rest.foldl (fun acc a => min acc (.fin (w a))) v) :=
              hrec
          _ = max (rest.foldl (fun acc a => min acc (.fin (w a))) v) alpha :=
              clamp_eq_max_of_le hfold_le hva.le
          _ = clamp alpha beta
                (rest.foldl (fun acc a => min acc (.fin (w a))) v) :=
              (clamp_eq_max_of_le (le_trans hfold_le hvb.le) hab.le).symm

/-! ## The search computes the game value (clamped) -/

lemma fin_foldl_max (v : Int) (l : List Int) :
    EInt.fin (l.foldl max v) =
      l.foldl (fun acc x => max acc (EInt.fin x)) (EInt.fin v) := by
  induction l generalizing v with
  | nil => rfl
  | cons x xs ih =>
    simp only [List.foldl_cons]
    rw [← EInt.fin_max]
    exact ih (max v x)

lemma fin_foldl_min (v : Int) (l : List Int) :
    EInt.fin (l.foldl min v) =
      l.foldl (fun acc x => min acc (EInt.fin x)) (EInt.fin v) := by
  induction l generalizing v with
  | nil => rfl
  | cons x xs ih =>
    simp only [List.foldl_cons]
    rw [← EInt.fin_min]
    exact ih (min v x)

lemma val_terminal {n : Nat} {b : Board} (ht : terminal b = true) :
    val (n + 1) b = utility b := by
  unfold val
  rw [if_pos ht, outcomeScore_outcome_eq_utility]

lemma fin_val_eq_foldl_max {n : Nat} {b : Board} (ht : terminal b = false)
    (hp : player b = .X) :
    EInt.fin (val (n + 1) b) =
      (actions b).foldl
        (fun acc a => max acc (.fin (val n (place b a.1 a.2 (player b)))))
        .negInf := by
  rcases hact : actions b with _ | ⟨a, rest⟩
  · exact absurd hact (terminal_eq_false_iff.mp ht).2
  · have hval : val (n + 1) b =
        (rest.map (fun a => val n (place b a.1 a.2 (player b)))).foldl max
          (val n (place b a.1 a.2 (player b))) := by
      conv_lhs => rw [val]
      rw [if_neg (by simp [ht]), hact]
      simp only [List.map_cons]
      rw [if_pos hp]
    rw [hval, fin_foldl_max, List.foldl_cons,
      max_eq_right (EInt.negInf_le _)]
    simp only [List.foldl_map]

lemma fin_val_eq_foldl_min {n : Nat} {b : Board} (ht : terminal b = false)
    (hp : player b = .O) :
    EInt.fin (val (n + 1) b) =
      (actions b).foldl
        (fun acc a => min acc (.fin (val n (place b a.1 a.2 (player b)))))
        .posInf := by
  rcases hact : actions b with _ | ⟨a, rest⟩
  · exact absurd hact (terminal_eq_false_iff.mp ht).2
  · have hval : val (n + 1) b =
        (rest.map (fun a => val n (place b a.1 a.2 (player b)))).foldl min
          (val n (place b a.1 a.2 (player b))) := by
      conv_lhs => rw [val]
      rw [if_neg (by simp [ht]), hact]
      simp only [List.map_cons]
      rw [if_neg (by rw [hp]; decide)]
    rw [hval, fin_foldl_min, List.foldl_cons,
      min_eq_right (EInt.le_posInf _)]
    simp only [List.foldl_map]

lemma player_ne_EMPTY (b : Board) : player b ≠ .EMPTY := by
  unfold player
  split_ifs <;> simp

lemma child_facts {b : Board} (hb : wf b) {a : Move} (ha : a ∈ actions b) :
    wf (place b a.1 a.2 (player b)) ∧
    occupiedCount (place b a.1 a.2 (player b)) = occupiedCount b + 1 ∧
    player (place b a.1 a.2 (player b)) =
      (if player b = .X then .O else .X) := by
  obtain ⟨i, j⟩ := a
  rw [mem_actions_iff] at ha
  obtain ⟨hi, hj, hc⟩ := ha
  exact ⟨wf_place hb _ _ _,
    occupiedCount_place hi hj hc (player_ne_EMPTY b),
    player_place hi hj hc (player_ne_EMPTY b)⟩

lemma value_clamp :
    ∀ n, ∀ b : Board, wf b → 9 - occupiedCount b < n →
      ∀ alpha beta : EInt, alpha < beta →
      (player b = .X →
        clamp alpha beta (maxValue n b alpha beta).1 =
          clamp alpha beta (.fin (val n b))) ∧
      (player b = .O →
        clamp alpha beta (minValue n b alpha beta).1 =
          clamp alpha beta (.fin (val n b))) := by
  intro n
  induction n with
  | zero =>
    intro b hb hf
    exact absurd hf (by omega)
  | succ n ih =>
    intro b hb hf alpha beta hab
    by_cases hterm : terminal b
    · have hval : val (n + 1) b = utility b := val_terminal hterm
      constructor <;> intro hp
      · show clamp alpha beta (maxValue (n + 1) b alpha beta).1 = _
        simp only [maxValue]
        rw [if_pos hterm, hval]
      · show clamp alpha beta (minValue (n + 1) b alpha beta).1 = _
        simp only [minValue]
        rw [if_pos hterm, hval]
    · have htf : terminal b = false := by rwa [Bool.not_eq_true] at hterm
      have hoccb : occupiedCount b < 9 := occupiedCount_lt_of_nonterminal hb htf
      constructor <;> intro hp
      · simp only [maxValue]
        rw [if_neg hterm]
        have hchild : ∀ a ∈ actions b, ∀ alpha', alpha' < beta →
            clamp alpha' beta
              ((fun action al be =>
                (minValue n (place b action.1 action.2 (player b)) al be).1)
                a alpha' beta) =
              clamp alpha' beta (.fin (val n (place b a.1 a.2 (player b)))) := by
          intro a ha alpha' hab'
          obtain ⟨hwf, hocc, hpl⟩ := child_facts hb ha
          have hplO : player (place b a.1 a.2 (player b)) = .O := by
            rw [hpl, if_pos hp]
          exact (ih (place b a.1 a.2 (player b)) hwf (by omega)
            alpha' beta hab').2 hplO
        rw [maxLoop_clamp _ (fun a => val n (place b a.1 a.2 (player b)))
          beta (actions b) hchild alpha .negInf none (EInt.negInf_le alpha) hab,
          ← fin_val_eq_foldl_max htf hp]
      · simp only [minValue]
        rw [if_neg hterm]
        have hchild : ∀ a ∈ actions b, ∀ beta', alpha < beta' →
            clamp alpha beta'
              ((fun action al be =>
                (maxValue n (place b action.1 action.2 (player b)) al be).1)
                a alpha beta') =
              clamp alpha beta' (.fin (val n (place b a.1 a.2 (player b)))) := by
          intro a ha beta' hab'
          obtain ⟨hwf, hocc, hpl⟩ := child_facts hb ha
          have hplX : player (place b a.1 a.2 (player b)) = .X := by
            rw [hpl, if_neg (by rw [hp]; decide)]
          exact (ih (place b a.1 a.2 (player b)) hwf (by omega)
            alpha beta' hab').1 hplX
        rw [minLoop_clamp _ (fun a => val n (place b a.1 a.2 (player b)))
          alpha (actions b) hchild beta .posInf none (EInt.le_posInf beta) hab,
          ← fin_val_eq_foldl_min htf hp]

lemma val_fuel_congr :
    ∀ n m, ∀ b : Board, wf b → 9 - occupiedCount b < n →
      9 - occupiedCount b < m → val n b = val m b := by
  intro n
  induction n with
  | zero =>
    intro m b hb hf hf'
    exact absurd hf (by omega)
  | succ n ih =>
    intro m b hb hfn hfm
    cases m with
    | zero => exact absurd hfm (by omega)
    | succ m =>
      unfold val
      by_cases hterm : terminal b
      · rw [if_pos hterm, if_pos hterm]
      · rw [if_neg hterm, if_neg hterm]
        have htf : terminal b = false := by rwa [Bool.not_eq_true] at hterm
        have hoccb : occupiedCount b < 9 :=
          occupiedCount_lt_of_nonterminal hb htf
        have hmap : (actions b).map
            (fun a => val n (place b a.1 a.2 (player b))) =
            (actions b).map (fun a => val m (place b a.1 a.2 (player b))) := by
          apply List.map_congr_left
          intro a ha
          obtain ⟨hwf, hocc, -⟩ := child_facts hb ha
          exact ih m _ hwf (by omega) (by omega)
        rw [hmap]

/-! ## The root loop: exact value and an optimal move -/

lemma EInt.max_ne_posInf {x y : EInt} (hx : x ≠ .posInf) (hy : y ≠ .posInf) :
    max x y ≠ .posInf := by
  rcases max_cases x y with ⟨he, -⟩ | ⟨he, -⟩ <;> rw [he] <;> assumption

lemma EInt.min_ne_negInf {x y : EInt} (hx : x ≠ .negInf) (hy : y ≠ .negInf) :
    min x y ≠ .negInf := by
  rcases min_cases x y with ⟨he, -⟩ | ⟨he, -⟩ <;> rw [he] <;> assumption

lemma maxLoop_exact (child : Move → EInt → EInt → EInt) (w : Move → Int) :
    ∀ (l : List Move),
      (∀ a ∈ l, ∀ alpha', alpha' < EInt.posInf →
        max (child a alpha' .posInf) alpha' = max (.fin (w a)) alpha') →
      ∀ (M : EInt) (best : Option Move), M ≠ .posInf →
        (maxLoop child l M .posInf M best).1 =
          l.foldl (fun acc a => max acc (.fin (w a))) M ∧
        ((maxLoop child l M .posInf M best).1 = M ∧
          (maxLoop child l M .posInf M best).2 = best ∨
         ∃ a ∈ l, (maxLoop child l M .posInf M best).2 = some a ∧
           (maxLoop child l M .posInf M best).1 = .fin (w a)) := by
  intro l
  induction l with
  | nil => exact fun _ M best _ => ⟨rfl, Or.inl ⟨rfl, rfl⟩⟩
  | cons a rest ih =>
    intro hchild M best hMtop
    have hv := hchild a (List.mem_cons_self a rest) M (EInt.lt_posInf_of_ne hMtop)
    set v := child a M .posInf with hvdef
    have hvtop : v ≠ .posInf := by
      intro hvt
      rw [hvt, max_eq_left (EInt.le_posInf M)] at hv
      exact EInt.max_ne_posInf (by simp) hMtop hv.symm
    have hMM : max M (max M v) = max M v := by
      rw [← max_assoc, max_self]
    have hnbr : ¬ (EInt.posInf ≤ max M (max M v)) := by
      rw [hMM]
      exact not_le.mpr (EInt.lt_posInf_of_ne (EInt.max_ne_posInf hMtop hvtop))
    rw [maxLoop_cons, if_neg hnbr, List.foldl_cons, hMM]
    by_cases hMv : M < v
    · have hMveq : max M v = v := max_eq_right hMv.le
      have hwa : EInt.fin (w a) = v := by
        rw [max_eq_left hMv.le] at hv
        rcases max_cases (EInt.fin (w a)) M with ⟨he, -⟩ | ⟨he, hle⟩ <;>
          rw [he] at hv
        · exact hv.symm
        · exact absurd hv.symm (ne_of_lt hMv)
      rw [if_pos hMv, hMveq]
      obtain ⟨h1, h2⟩ := ih (fun a' ha' => hchild a' (List.mem_cons_of_mem a ha'))
        v (some a) hvtop
      refine ⟨by rw [h1, hwa, hMveq], ?_⟩
      rcases h2 with ⟨hval, hbest⟩ | ⟨a', ha', hbest, hval⟩
      · exact Or.inr ⟨a, List.mem_cons_self a rest, hbest, by rw [hval, hwa]⟩
      · exact Or.inr ⟨a', List.mem_cons_of_mem a ha', hbest, hval⟩
    · have hvM : v ≤ M := not_lt.mp hMv
      have hMveq : max M v = M := max_eq_left hvM
      have hwa : EInt.fin (w a) ≤ M := by
        rw [max_eq_right hvM] at hv
        exact hv ▸ le_max_left (EInt.fin (w a)) M
      rw [if_neg hMv, hMveq]
      obtain ⟨h1, h2⟩ := ih (fun a' ha' => hchild a' (List.mem_cons_of_mem a ha'))
        M best hMtop
      refine ⟨by rw [h1, max_eq_left hwa], ?_⟩
      rcases h2 with ⟨hval, hbest⟩ | ⟨a', ha', hbest, hval⟩
      · exact Or.inl ⟨hval, hbest⟩
      · exact Or.inr ⟨a', List.mem_cons_of_mem a ha', hbest, hval⟩

lemma minLoop_exact (child : Move → EInt → EInt → EInt) (w : Move → Int) :
    ∀ (l : List Move),
      (∀ a ∈ l, ∀ beta', EInt.negInf < beta' →
        min (child a .negInf beta') beta' = min (.fin (w a)) beta') →
      ∀ (M : EInt) (best : Option Move), M ≠ .negInf →
        (minLoop child l .negInf M M best).1 =
          l.foldl (fun acc a => min acc (.fin (w a))) M ∧
        ((minLoop child l .negInf M M best).1 = M ∧
          (minLoop child l .negInf M M best).2 = best ∨
         ∃ a ∈ l, (minLoop child l .negInf M M best).2 = some a ∧
           (minLoop child l .negInf M M best).1 = .fin (w a)) := by
  intro l
  induction l with
  | nil => exact fun _ M best _ => ⟨rfl, Or.inl ⟨rfl, rfl⟩⟩
  | cons a rest ih =>
    intro hchild M best hMbot
    have hv := hchild a (List.mem_cons_self a rest) M (by
      rcases M with _ | v
      · exact absurd rfl hMbot
      · exact EInt.negInf_lt_fin v
      · simp [EInt.lt_def, EInt.ble])
    set v := child a .negInf M with hvdef
    have hvbot : v ≠ .negInf := by
      intro hvt
      rw [hvt, min_eq_left (EInt.negInf_le M)] at hv
      exact EInt.min_ne_negInf (by simp) hMbot hv.symm
    have hMM : min M (min M v) = min M v := by
      rw [← min_assoc, min_self]
    have hnbr : ¬ (min M (min M v) ≤ EInt.negInf) := by
      rw [hMM]
      refine not_le.mpr ?_
      have hne := EInt.min_ne_negInf hMbot hvbot
      rcases hmin : min M v with _ | x
      · exact absurd hmin hne
      · exact EInt.negInf_lt_fin x
      · simp [EInt.lt_def, EInt.ble]
    rw [minLoop_cons, if_neg hnbr, List.foldl_cons, hMM]
    by_cases hMv : v < M
    · have hMveq : min M v = v := min_eq_right hMv.le
      have hwa : EInt.fin (w a) = v := by
        rw [min_eq_left hMv.le] at hv
        rcases min_cases (EInt.fin (w a)) M with ⟨he, -⟩ | ⟨he, hle⟩ <;>
          rw [he] at hv
        · exact hv.symm
        · exact absurd hv (ne_of_lt hMv)
      rw [if_pos hMv, hMveq]
      obtain ⟨h1, h2⟩ := ih (fun a' ha' => hchild a' (List.mem_cons_of_mem a ha'))
        v (some a) hvbot
      refine ⟨by rw [h1, hwa, hMveq], ?_⟩
      rcases h2 with ⟨hval, hbest⟩ | ⟨a', ha', hbest, hval⟩
      · exact Or.inr ⟨a, List.mem_cons_self a rest, hbest, by rw [hval, hwa]⟩
      · exact Or.inr ⟨a', List.mem_cons_of_mem a ha', hbest, hval⟩
    · have hvM : M ≤ v := not_lt.mp hMv
      have hMveq : min M v = M := min_eq_left hvM
      have hwa : M ≤ EInt.fin (w a) := by
        rw [min_eq_right hvM] at hv
        exact hv ▸ min_le_left (EInt.fin (w a)) M
      rw [if_neg hMv, hMveq]
      obtain ⟨h1, h2⟩ := ih (fun a' ha' => hchild a' (List.mem_cons_of_mem a ha'))
        M best hMbot
      refine ⟨by rw [h1, min_eq_left hwa], ?_⟩
      rcases h2 with ⟨hval, hbest⟩ | ⟨a', ha', hbest, hval⟩
      · exact Or.inl ⟨hval, hbest⟩
      · exact Or.inr ⟨a', List.mem_cons_of_mem a ha', hbest, hval⟩

/-! ## Optimality of `minimax` -/

lemma maxValue_ten_eval {b : Board} (ht : terminal b = false) :
    maxValue 10 b .negInf .posInf =
      maxLoop
        (fun action al be =>
          (minValue 9 (place b action.1 action.2 (player b)) al be).1)
        (actions b) .negInf .posInf .negInf none := by
  show maxValue (9 + 1) b .negInf .posInf = _
  simp only [maxValue]
  rw [if_neg (by simp [ht])]

lemma minValue_ten_eval {b : Board} (ht : terminal b = false) :
    minValue 10 b .negInf .posInf =
      minLoop
        (fun action al be =>
          (maxValue 9 (place b action.1 action.2 (player b)) al be).1)
        (actions b) .negInf .posInf .posInf none := by
  show minValue (9 + 1) b .negInf .posInf = _
  simp only [minValue]
  rw [if_neg (by simp [ht])]

lemma gameValue_child_eq {b : Board} (hb : wf b) (ht : terminal b = false)
    {a : Move} (ha : a ∈ actions b) :
    gameValue (place b a.1 a.2 (player b)) =
      val 9 (place b a.1 a.2 (player b)) := by
  obtain ⟨hwf, hocc, -⟩ := child_facts hb ha
  have hlt : occupiedCount b < 9 := occupiedCount_lt_of_nonterminal hb ht
  exact val_fuel_congr 10 9 _ hwf (by omega) (by omega)

/-- On any well-formed non-terminal board, `minimax` returns a move of
the action list whose child board has the same game-theoretic value as
the board itself — an optimal move for the side to move. -/
theorem minimax_optimal_general {b : Board} (hb : wf b)
    (ht : terminal b = false) :
    ∃ m, minimax b = some m ∧ m ∈ actions b ∧
      gameValue (place b m.1 m.2 (player b)) = gameValue b := by
  have hterm : ¬ terminal b = true := by simp [ht]
  have hocc : occupiedCount b < 9 := occupiedCount_lt_of_nonterminal hb ht
  have h910 : (9 : Nat) + 1 = 10 := rfl
  have hpXO : player b = .X ∨ player b = .O := by
    unfold player
    split_ifs <;> simp
  rcases hpXO with hp | hp
  · have hchild : ∀ a ∈ actions b, ∀ alpha', alpha' < EInt.posInf →
        max ((fun action al be =>
            (minValue 9 (place b action.1 action.2 (player b)) al be).1)
          a alpha' .posInf) alpha' =
          max (.fin (val 9 (place b a.1 a.2 (player b)))) alpha' := by
      intro a ha alpha' halt
      obtain ⟨hwf, hoccc, hpl⟩ := child_facts hb ha
      have hplO : player (place b a.1 a.2 (player b)) = .O := by
        rw [hpl, if_pos hp]
      have hcl := (value_clamp 9 _ hwf (by omega) alpha' .posInf halt).2 hplO
      rwa [clamp_top, clamp_top] at hcl
    obtain ⟨h1, h2⟩ := maxLoop_exact
      (fun action al be =>
        (minValue 9 (place b action.1 action.2 (player b)) al be).1)
      (fun a => val 9 (place b a.1 a.2 (player b))) (actions b) hchild
      EInt.negInf none (by simp)
    rw [← maxValue_ten_eval ht] at h1 h2
    have hfold : (actions b).foldl
        (fun acc a => max acc (EInt.fin (val 9 (place b a.1 a.2 (player b)))))
        EInt.negInf = EInt.fin (val 10 b) := by
      rw [← h910]
      exact (fin_val_eq_foldl_max ht hp).symm
    rw [hfold] at h1
    rcases h2 with ⟨hval, -⟩ | ⟨a, ha, hbest, hval⟩
    · rw [h1] at hval
      simp at hval
    · refine ⟨a, ?_, ha, ?_⟩
      · unfold minimax
        rw [if_neg hterm, if_pos hp, hbest]
      · rw [hval] at h1
        simp only [EInt.fin.injEq] at h1
        rw [gameValue_child_eq hb ht ha, h1]
        rfl
  · have hchild : ∀ a ∈ actions b, ∀ beta', EInt.negInf < beta' →
        min ((fun action al be =>
            (maxValue 9 (place b action.1 action.2 (player b)) al be).1)
          a .negInf beta') beta' =
          min (.fin (val 9 (place b a.1 a.2 (player b)))) beta' := by
      intro a ha beta' hbgt
      obtain ⟨hwf, hoccc, hpl⟩ := child_facts hb ha
      have hplX : player (place b a.1 a.2 (player b)) = .X := by
        rw [hpl, if_neg (by rw [hp]; decide)]
      have hcl := (value_clamp 9 _ hwf (by omega) .negInf beta' hbgt).1 hplX
      have hbot : ∀ x : EInt, clamp .negInf beta' x = min x beta' := by
        intro x
        rw [clamp, max_eq_left (EInt.negInf_le x)]
      rwa [hbot, hbot] at hcl
    obtain ⟨h1, h2⟩ := minLoop_exact
      (fun action al be =>
        (maxValue 9 (place b action.1 action.2 (player b)) al be).1)
      (fun a => val 9 (place b a.1 a.2 (player b))) (actions b) hchild
      EInt.posInf none (by simp)
    rw [← minValue_ten_eval ht] at h1 h2
    have hfold : (actions b).foldl
        (fun acc a => min acc (EInt.fin (val 9 (place b a.1 a.2 (player b)))))
        EInt.posInf = EInt.fin (val 10 b) := by
      rw [← h910]
      exact (fin_val_eq_foldl_min ht hp).symm
    rw [hfold] at h1
    rcases h2 with ⟨hval, -⟩ | ⟨a, ha, hbest, hval⟩
    · rw [h1] at hval
      simp at hval
    · refine ⟨a, ?_, ha, ?_⟩
      · unfold minimax
        rw [if_neg hterm, if_neg (by rw [hp]; decide), hbest]
      · rw [hval] at h1
        simp only [EInt.fin.injEq] at h1
        rw [gameValue_child_eq hb ht ha, h1]
        rfl

lemma foldl_max_mem_le (f : Move → EInt) :
    ∀ (l : List Move) (M : EInt), ∀ a ∈ l,
      f a ≤ l.foldl (fun acc a => max acc (f a)) M := by
  intro l
  induction l with
  | nil => intro M a ha; simp at ha
  | cons a' rest ih =>
    intro M a ha
    rcases List.mem_cons.mp ha with rfl | ha'
    · exact le_trans (le_max_right M (f a))
        (le_foldl_max f rest (max M (f a)))
    · exact ih _ a ha'

lemma foldl_min_mem_ge (f : Move → EInt) :
    ∀ (l : List Move) (M : EInt), ∀ a ∈ l,
      l.foldl (fun acc a => min acc (f a)) M ≤ f a := by
  intro l
  induction l with
  | nil => intro M a ha; simp at ha
  | cons a' rest ih =>
    intro M a ha
    rcases List.mem_cons.mp ha with rfl | ha'
    · exact le_trans (foldl_min_le f rest (min M (f a)))
        (min_le_right M (f a))
    · exact ih _ a ha'

lemma gameValue_child_bound {b : Board} (hb : wf b) (ht : terminal b = false)
    {a : Move} (ha : a ∈ actions b) :
    (player b = .X →
      gameValue (place b a.1 a.2 (player b)) ≤ gameValue b) ∧
    (player b = .O →
      gameValue b ≤ gameValue (place b a.1 a.2 (player b))) := by
  have h910 : (9 : Nat) + 1 = 10 := rfl
  constructor <;> intro hp
  · have hfold : EInt.fin (val 10 b) =
        (actions b).foldl
          (fun acc a => max acc (EInt.fin (val 9 (place b a.1 a.2 (player b)))))
          EInt.negInf := by
      rw [← h910]
      exact fin_val_eq_foldl_max ht hp
    have hle := foldl_max_mem_le
      (fun a => EInt.fin (val 9 (place b a.1 a.2 (player b))))
      (actions b) EInt.negInf a ha
    rw [← hfold] at hle
    rw [gameValue_child_eq hb ht ha]
    exact EInt.fin_le_fin.mp hle
  · have hfold : EInt.fin (val 10 b) =
        (actions b).foldl
          (fun acc a => min acc (EInt.fin (val 9 (place b a.1 a.2 (player b)))))
          EInt.posInf := by
      rw [← h910]
      exact fin_val_eq_foldl_min ht hp
    have hle := foldl_min_mem_ge
      (fun a => EInt.fin (val 9 (place b a.1 a.2 (player b))))
      (actions b) EInt.posInf a ha
    rw [← hfold] at hle
    rw [gameValue_child_eq hb ht ha]
    exact EInt.fin_le_fin.mp hle

/-! ## Claim theorems: optimality of the search -/

/-- C1: on every non-terminal board reachable by legal play, `minimax`
returns a legal move that is game-theoretically optimal for the side
to move under the value mapping `XWins → +1, Draw → 0, OWins → -1`
(`gameValue`, in which `X` maximizes and `O` minimizes): the chosen
child keeps the value of the board, and no other available move gives
`X` a larger (resp. `O` a smaller) value. -/
theorem minimax_game_theoretically_optimal (b : Board) (hreach : LegalReach b)
    (ht : terminal b = false) :
    ∃ m, minimax b = some m ∧ m ∈ actions b ∧
      gameValue (place b m.1 m.2 (player b)) = gameValue b ∧
      ∀ a ∈ actions b,
        (player b = .X →
          gameValue (place b a.1 a.2 (player b)) ≤
            gameValue (place b m.1 m.2 (player b))) ∧
        (player b = .O →
          gameValue (place b m.1 m.2 (player b)) ≤
            gameValue (place b a.1 a.2 (player b))) := by
  have hb : wf b := wf_of_legalReach hreach
  obtain ⟨m, hm, hmem, hval⟩ := minimax_optimal_general hb ht
  refine ⟨m, hm, hmem, hval, fun a ha => ⟨?_, ?_⟩⟩ <;> intro hp
  · rw [hval]
    exact (gameValue_child_bound hb ht ha).1 hp
  · rw [hval]
    exact (gameValue_child_bound hb ht ha).2 hp

/-- Witness for C1 at a concrete input: the initial board. -/
theorem minimax_game_theoretically_optimal_witness :
    ∃ m, minimax initialState = some m ∧ m ∈ actions initialState ∧
      gameValue (place initialState m.1 m.2 (player initialState)) =
        gameValue initialState ∧
      ∀ a ∈ actions initialState,
        (player initialState = .X →
          gameValue (place initialState a.1 a.2 (player initialState)) ≤
            gameValue (place initialState m.1 m.2 (player initialState))) ∧
        (player initialState = .O →
          gameValue (place initialState m.1 m.2 (player initialState)) ≤
            gameValue (place initialState a.1 a.2 (player initialState))) :=
  minimax_game_theoretically_optimal initialState LegalReach.init (by decide)

/-- C5: on every terminal board `minimax` returns `none` rather than
failing, and on every non-terminal board reachable by legal play it
returns a move that `result` accepts. -/
theorem minimax_none_on_terminal_and_accepted :
    (∀ b : Board, terminal b = true → minimax b = none) ∧
    (∀ b : Board, LegalReach b → terminal b = false →
      ∃ m, minimax b = some m ∧ (result b m).isSome = true) := by
  constructor
  · intro b ht
    unfold minimax
    rw [if_pos ht]
  · intro b hr ht
    obtain ⟨m, hm, hmem, -⟩ :=
      minimax_optimal_general (wf_of_legalReach hr) ht
    refine ⟨m, hm, ?_⟩
    rw [result_of_mem_actions (wf_of_legalReach hr) hmem]
    rfl

/-- Witness for C5 at concrete inputs: a won board gets `none`, the
initial board gets an accepted move. -/
theorem minimax_none_on_terminal_and_accepted_witness :
    minimax [[.X, .X, .X], [.O, .O, .EMPTY], [.EMPTY, .EMPTY, .EMPTY]] =
      none ∧
    ∃ m, minimax initialState = some m ∧
      (result initialState m).isSome = true :=
  ⟨minimax_none_on_terminal_and_accepted.1 _ (by decide),
   minimax_none_on_terminal_and_accepted.2 initialState LegalReach.init
     (by decide)⟩

/-! ## Self-play -/

lemma selfPlay_terminal_value :
    ∀ (n : Nat) (b : Board), wf b → 9 - occupiedCount b ≤ n →
      terminal (selfPlay n b) = true ∧
      gameValue (selfPlay n b) = gameValue b := by
  intro n
  induction n with
  | zero =>
    intro b hb hf
    simp only [selfPlay]
    exact ⟨terminal_of_full hb (by omega), trivial⟩
  | succ n ih =>
    intro b hb hf
    by_cases hterm : terminal b = true
    · have hmm : minimax b = none := by
        unfold minimax
        rw [if_pos hterm]
      simp only [selfPlay, hmm]
      exact ⟨hterm, trivial⟩
    · have htf : terminal b = false := by rwa [Bool.not_eq_true] at hterm
      obtain ⟨m, hm, hmem, hval⟩ := minimax_optimal_general hb htf
      simp only [selfPlay, hm]
      obtain ⟨hwf, hocc, -⟩ := child_facts hb hmem
      have hoccb : occupiedCount b < 9 := occupiedCount_lt_of_nonterminal hb htf
      obtain ⟨hterm', hval'⟩ :=
        ih (place b m.1 m.2 (player b)) hwf (by omega)
      exact ⟨hterm', by rw [hval', hval]⟩

/-! ## Evaluation of the search at the initial board

The root call `maxValue 10 initialState -∞ +∞` is evaluated move by
move: the loop over the nine opening moves is stepped symbolically
with `maxLoop_cons`, and each opening move's child search (a
`minValue 9` call, at the window the loop actually passes it) is
evaluated by the kernel through the forcing evaluator.  Splitting the
evaluation this way keeps each kernel computation small. -/

lemma rootChild_apply (i j : Nat) (al be : EInt) :
    rootChild (i, j) al be =
      (minValue 9 (place initialState i j (player initialState)) al be).1 := rfl

lemma maxValue_initial_unfold :
    maxValue 10 initialState .negInf .posInf =
      maxLoop rootChild (actions initialState) .negInf .posInf .negInf none := by
  rw [maxValue_ten_eval (by decide)]
  rfl

set_option maxRecDepth 1000000 in
lemma rootChild_eval00 : rootChild (0, 0) .negInf .posInf = .fin 0 := by
  rw [rootChild_apply, show player initialState = Cell.X from rfl,
    ← minValueE_eq]
  decide

set_option maxRecDepth 1000000 in
lemma rootChild_eval01 : rootChild (0, 1) (.fin 0) .posInf = .fin 0 := by
  rw [rootChild_apply, show player initialState = Cell.X from rfl,
    ← minValueE_eq]
  decide

set_option maxRecDepth 1000000 in
lemma rootChild_eval02 : rootChild (0, 2) (.fin 0) .posInf = .fin 0 := by
  rw [rootChild_apply, show player initialState = Cell.X from rfl,
    ← minValueE_eq]
  decide

set_option maxRecDepth 1000000 in
lemma rootChild_eval10 : rootChild (1, 0) (.fin 0) .posInf = .fin 0 := by
  rw [rootChild_apply, show player initialState = Cell.X from rfl,
    ← minValueE_eq]
  decide

set_option maxRecDepth 1000000 in
lemma rootChild_eval11 : rootChild (1, 1) (.fin 0) .posInf = .fin 0 := by
  rw [rootChild_apply, show player initialState = Cell.X from rfl,
    ← minValueE_eq]
  decide

set_option maxRecDepth 1000000 in
lemma rootChild_eval12 : rootChild (1, 2) (.fin 0) .posInf = .fin 0 := by
  rw [rootChild_apply, show player initialState = Cell.X from rfl,
    ← minValueE_eq]
  decide

set_option maxRecDepth 1000000 in
lemma rootChild_eval20 : rootChild (2, 0) (.fin 0) .posInf = .fin 0 := by
  rw [rootChild_apply, show player initialState = Cell.X from rfl,
    ← minValueE_eq]
  decide

set_option maxRecDepth 1000000 in
lemma rootChild_eval21 : rootChild (2, 1) (.fin 0) .posInf = .fin 0 := by
  rw [rootChild_apply, show player initialState = Cell.X from rfl,
    ← minValueE_eq]
  decide

set_option maxRecDepth 1000000 in
lemma rootChild_eval22 : rootChild (2, 2) (.fin 0) .posInf = .fin 0 := by
  rw [rootChild_apply, show player initialState = Cell.X from rfl,
    ← minValueE_eq]
  decide

lemma maxLoop_step_first (child : Move → EInt → EInt → EInt) (rest : List Move)
    (h : child (0, 0) .negInf .posInf = .fin 0) :
    maxLoop child ((0, 0) :: rest) .negInf .posInf .negInf none =
      maxLoop child rest (.fin 0) .posInf (.fin 0) (some (0, 0)) := by
  rw [maxLoop_cons, h]
  rfl

lemma maxLoop_step_noop (child : Move → EInt → EInt → EInt) (a : Move)
    (rest : List Move) (h : child a (.fin 0) .posInf = .fin 0) :
    maxLoop child (a :: rest) (.fin 0) .posInf (.fin 0) (some (0, 0)) =
      maxLoop child rest (.fin 0) .posInf (.fin 0) (some (0, 0)) := by
  rw [maxLoop_cons, h]
  rfl

set_option maxRecDepth 100000 in
lemma maxValue_initial :
    maxValue 10 initialState .negInf .posInf = (.fin 0, some (0, 0)) := by
  rw [maxValue_initial_unfold]
  rw [show actions initialState =
    [(0, 0), (0, 1), (0, 2), (1, 0), (1, 1), (1, 2), (2, 0), (2, 1),
      (2, 2)] from by decide]
  rw [maxLoop_step_first rootChild _ rootChild_eval00]
  rw [maxLoop_step_noop rootChild _ _ rootChild_eval01]
  rw [maxLoop_step_noop rootChild _ _ rootChild_eval02]
  rw [maxLoop_step_noop rootChild _ _ rootChild_eval10]
  rw [maxLoop_step_noop rootChild _ _ rootChild_eval11]
  rw [maxLoop_step_noop rootChild _ _ rootChild_eval12]
  rw [maxLoop_step_noop rootChild _ _ rootChild_eval20]
  rw [maxLoop_step_noop rootChild _ _ rootChild_eval21]
  rw [maxLoop_step_noop rootChild _ _ rootChild_eval22]
  rfl

lemma gameValue_initial : gameValue initialState = 0 := by
  have hocc : occupiedCount initialState = 0 := rfl
  have hcl := (value_clamp 10 initialState wf_initialState (by omega)
    .negInf .posInf (by decide)).1 rfl
  rw [clamp_bot_top, clamp_bot_top, maxValue_initial] at hcl
  exact (EInt.fin.inj hcl.symm)

/-- C6: on the all-empty initial board the candidate moves are
generated in row-major order and `minimax` returns exactly `(0, 0)`:
comparisons use strict inequality, so the first of the equally optimal
opening moves in row-major order wins the tie. -/
theorem minimax_initial_returns_first_corner :
    actions initialState =
      [(0, 0), (0, 1), (0, 2), (1, 0), (1, 1), (1, 2), (2, 0), (2, 1),
        (2, 2)] ∧
    minimax initialState = some (0, 0) := by
  refine ⟨by decide, ?_⟩
  unfold minimax
  rw [if_neg (by decide),
    if_pos (show player initialState = Cell.X by rfl), maxValue_initial]

/-- C2: self-play from the initial board, always applying the move
returned by `minimax`, ends in a terminal drawn board: outcome `Draw`,
no winning line for either side, and no empty cell remaining. -/
theorem selfPlay_initial_draw :
    outcome (selfPlay 9 initialState) = .Draw ∧
    winner (selfPlay 9 initialState) = none ∧
    actions (selfPlay 9 initialState) = [] := by
  obtain ⟨hterm, hval⟩ := selfPlay_terminal_value 9 initialState
    wf_initialState (by omega)
  set F := selfPlay 9 initialState with hF
  have hval0 : gameValue F = 0 := by
    rw [hval, gameValue_initial]
  have hutil : utility F = 0 := by
    have hv := val_terminal (n := 9) hterm
    rw [← hv]
    exact hval0
  have hwn : winner F = none := by
    rcases hw : winner F with _ | m'
    · rfl
    · exfalso
      cases m' with
      | EMPTY => exact absurd hw (winner_ne_some_EMPTY F)
      | X =>
        unfold utility at hutil
        rw [if_pos hw] at hutil
        norm_num at hutil
      | O =>
        unfold utility at hutil
        rw [if_neg (by rw [hw]; simp), if_pos hw] at hutil
        norm_num at hutil
  refine ⟨?_, hwn, ?_⟩
  · unfold outcome
    simp [hwn, hterm]
  · have hterm' := hterm
    unfold terminal at hterm'
    rw [hwn] at hterm'
    simpa [List.isEmpty_iff] using hterm'

end TicTacToe
